import Mathlib

/-!
Verification of the dependency-graph analyzer in `codebase-health/scripts`
(`circular-deps.py`, `lib/imports.py`, `lib/ignore.py`).

The Python code is embedded shallowly:

* Python `dict`s keyed by strings are association lists in insertion order;
  Python `set`s of strings are duplicate-free lists whose order models the
  iteration order CPython happens to use (which, for strings, depends on the
  per-process hash seed, so it is NOT a function of the abstract set).
* The filesystem (walked files, `os.path.isfile`, import resolution) is
  abstracted into explicit inputs: each walked file carries the outcome of
  `extract_imports`, and classification/resolution are oracle functions.
* Python `ast` parsing is abstracted as `Option PyMod`: `none` models a
  `SyntaxError` from `ast.parse`; `some` carries a statement tree that is
  rich enough for the import / TYPE_CHECKING logic of
  `_extract_python_imports`.
* Floats are modelled by `ℚ`.  Every numeric value reachable in
  `detect_god_modules` (integer in-degrees, medians of integers, their
  triples, `round(x, 1)` of such values) is exactly representable in binary
  floating point, so `ℚ` arithmetic agrees with the Python float arithmetic
  on all reachable values.
-/

namespace CodebaseHealth

/-! ### Association-list dictionaries (Python `dict`/`defaultdict(set)`) -/

/-- A Python `Dict[str, Set[str]]`: keys in insertion order, each value a
duplicate-free list standing for a `set` together with an iteration order. -/
abbrev Dict := List (String × List String)

/-- Lookup of a key (first binding wins, as in a Python dict). -/
def dictFind (d : Dict) (k : String) : Option (List String) :=
  match d with
  | [] => none
  | (k', v) :: rest => if k' = k then some v else dictFind rest k

/-- `graph.get(node, set())`. -/
def lookupSet (d : Dict) (k : String) : List String :=
  (dictFind d k).getD []

/-- The keys of the dict, in insertion order. -/
def dictKeys (d : Dict) : List String := d.map Prod.fst

/-- `if k not in d: d[k] = set()` — register a key with an empty set. -/
def ensureKey (d : Dict) (k : String) : Dict :=
  if (dictFind d k).isSome then d else d ++ [(k, [])]

/-- Add `v` to the set `s` (Python `set.add`): no duplicates. -/
def insertVal (s : List String) (v : String) : List String :=
  if v ∈ s then s else s ++ [v]

/-- `d[k].add(v)` on a `defaultdict(set)`: the key is created at the end of
the insertion order if absent. -/
def addEdge (d : Dict) (k v : String) : Dict :=
  match d with
  | [] => [(k, [v])]
  | (k', s) :: rest =>
      if k' = k then (k', insertVal s v) :: rest else (k', s) :: addEdge rest k v

/-! ### String primitives

The built-in `String.splitOn`, `String.replace`, `String.startsWith` and
`String.toLower` do not reduce inside the kernel, so the handful of string
operations the Python code uses (`str.split`, `str.replace`,
`str.startswith`, `str.lower`) are given executable character-list
implementations here. -/

/-- Split on a single-character separator (Python `str.split(sep)` for a
one-character `sep`; the result is always nonempty). -/
def splitOnChar (c : Char) : List Char → List (List Char)
  | [] => [[]]
  | x :: rest =>
      match splitOnChar c rest with
      | [] => [[]]
      | h :: t => if x = c then [] :: h :: t else (x :: h) :: t

/-- `p.split(sep)` for a one-character separator, on strings. -/
def strSplitChar (p : String) (c : Char) : List String :=
  (splitOnChar c p.toList).map String.mk

/-- Python `s.startswith(pre)`. -/
def strStartsWith (s pre : String) : Bool :=
  pre.toList.isPrefixOf s.toList

/-- Python `s.lower()` (ASCII, which is all the code compares). -/
def strToLower (s : String) : String :=
  String.mk (s.toList.map Char.toLower)

/-- Python `target.split("::")`. -/
def splitOnColonColon : List Char → List (List Char)
  | [] => [[]]
  | [c] => [[c]]
  | c1 :: c2 :: rest =>
      if c1 = ':' ∧ c2 = ':' then
        [] :: splitOnColonColon rest
      else
        match splitOnColonColon (c2 :: rest) with
        | [] => [[]]
        | h :: t => (c1 :: h) :: t

/-- Python `target.replace("::", "/")`. -/
def replaceColonColon : List Char → List Char
  | [] => []
  | [c] => [c]
  | c1 :: c2 :: rest =>
      if c1 = ':' ∧ c2 = ':' then '/' :: replaceColonColon rest
      else c1 :: replaceColonColon (c2 :: rest)

/-! ### Language detection (`lib/imports.py`, `detect_language`) -/

/-- Split a character list at its last `.`, returning the part before and the
part from the dot on; `none` when there is no dot. -/
def splitLastDot : List Char → Option (List Char × List Char)
  | [] => none
  | c :: rest =>
      match splitLastDot rest with
      | some (b, a) => some (c :: b, a)
      | none => if c = '.' then some ([], c :: rest) else none

/-- `os.path.splitext(p)[1]` for `/`-separated paths: the extension of the
last path component, empty when the only dots are leading dots of the
basename (CPython `genericpath._splitext`). -/
def splitext_ext (p : String) : String :=
  let base := (splitOnChar '/' p.toList).getLastD []
  match splitLastDot base with
  | none => ("")
  | some (before, ext) =>
      if before.any (fun c => c ≠ '.') then String.mk ext else ("")

/-- The `_EXT_TO_LANG` table of `lib/imports.py`. -/
def ext_to_lang (ext : String) : Option String :=
  if ext = ".py" then some ("python")
  else if ext = ".js" then some ("javascript")
  else if ext = ".jsx" then some ("javascript")
  else if ext = ".mjs" then some ("javascript")
  else if ext = ".cjs" then some ("javascript")
  else if ext = ".ts" then some ("typescript")
  else if ext = ".tsx" then some ("typescript")
  else if ext = ".mts" then some ("typescript")
  else if ext = ".cts" then some ("typescript")
  else if ext = ".go" then some ("go")
  else if ext = ".rs" then some ("rust")
  else none

/-- `detect_language`: `_EXT_TO_LANG.get(os.path.splitext(file_path)[1].lower())`. -/
def detect_language (file_path : String) : Option String :=
  ext_to_lang (strToLower (splitext_ext file_path))

/-- `SOURCE_EXTENSIONS` of `lib/ignore.py` (language → extensions). -/
def SOURCE_EXTENSIONS : List (String × List String) :=
  [ ("python", [".py"])
  , ("javascript", [".js", ".jsx", ".mjs", ".cjs"])
  , ("typescript", [".ts", ".tsx", ".mts", ".cts"])
  , ("go", [".go"])
  , ("rust", [".rs"])
  , ("java", [".java"])
  , ("ruby", [".rb"])
  , ("php", [".php"])
  , ("c", [".c", ".h"])
  , ("cpp", [".cpp", ".hpp", ".cc", ".hh", ".cxx", ".hxx"]) ]

/-- `ALL_SOURCE_EXTENSIONS`: the union of all per-language extension sets
(the walker admits every one of these extensions). -/
def ALL_SOURCE_EXTENSIONS : List String :=
  (SOURCE_EXTENSIONS.map Prod.snd).foldl (fun a b => a ++ b) []

/-! ### Import records (`lib/imports.py`, `@dataclass Import`) -/

/-- The `Import` dataclass: one extracted import statement.  The source
field `alias` is a Lean keyword and is named `alias_name` here. -/
structure Import where
  source_file : String
  target : String
  alias_name : Option String
  is_type_only : Bool
  line : Nat
deriving Repr, DecidableEq

/-! ### Python statement trees and `_extract_python_imports`

`ast.parse` itself is outside the embedding; its result is modelled by the
statement tree below, which carries exactly the data the extractor reads:
statement kinds `Import` / `ImportFrom` / `If` (everything else is
`otherStmt`), line numbers, optional end line numbers, the `If` test (only
`Name.id` / `Attribute.attr` are inspected), bodies and `orelse` branches. -/

/-- The fragment of `ast.expr` inspected by the extractor. -/
inductive PyExpr where
  | name (id : String)
  | attribute (attr : String)
  | otherExpr
deriving Repr, DecidableEq

/-- An `ast.alias` (imported name with optional `as` rename). -/
structure PyAlias where
  name : String
  asname : Option String
deriving Repr, DecidableEq

/-- The fragment of `ast.stmt` inspected by the extractor.  Every statement
carries `lineno` and an optional `end_lineno`. -/
inductive PyStmt where
  | importStmt (names : List PyAlias) (lineno : Nat) (end_lineno : Option Nat)
  | importFrom (module : Option String) (level : Nat) (names : List PyAlias)
      (lineno : Nat) (end_lineno : Option Nat)
  | ifStmt (test : PyExpr) (body : List PyStmt) (orelse : List PyStmt)
      (lineno : Nat) (end_lineno : Option Nat)
  | otherStmt (lineno : Nat) (end_lineno : Option Nat)

/-- `node.lineno`. -/
def stmtLineno : PyStmt → Nat
  | .importStmt _ ln _ => ln
  | .importFrom _ _ _ ln _ => ln
  | .ifStmt _ _ _ ln _ => ln
  | .otherStmt ln _ => ln

/-- `node.end_lineno`. -/
def stmtEndLineno : PyStmt → Option Nat
  | .importStmt _ _ e => e
  | .importFrom _ _ _ _ e => e
  | .ifStmt _ _ _ _ e => e
  | .otherStmt _ e => e

/-- The statement children of a statement, in `ast.iter_child_nodes` order
(for `If`: body then orelse; expression children carry no statements). -/
def pyChildren : PyStmt → List PyStmt
  | .ifStmt _ body orelse _ _ => body ++ orelse
  | _ => []

mutual

/-- Size measure for termination of the breadth-first walk. -/
def stmtSize : PyStmt → Nat
  | .ifStmt _ body orelse _ _ => 1 + stmtListSize body + stmtListSize orelse
  | _ => 1

/-- Total size of a list of statements. -/
def stmtListSize : List PyStmt → Nat
  | [] => 0
  | s :: rest => stmtSize s + stmtListSize rest

end

theorem stmtListSize_append (a b : List PyStmt) :
    stmtListSize (a ++ b) = stmtListSize a + stmtListSize b := by
  induction a with
  | nil => simp [stmtListSize]
  | cons s rest ih => simp [stmtListSize, ih]; omega

theorem stmtListSize_children_lt (s : PyStmt) :
    stmtListSize (pyChildren s) < stmtSize s := by
  cases s <;> simp [pyChildren, stmtSize, stmtListSize, stmtListSize_append]

/-- `ast.walk`: breadth-first traversal of all statements reachable from a
queue of statements (Python yields the `Module` node and expression nodes as
well, but those never match the `isinstance` filters of the extractor, so the
statements appear here in exactly the order the extractor sees them).  Each
step shrinks `stmtListSize` of the queue by one, so the fuel
`stmtListSize queue + 1` supplied by the caller is never exhausted. -/
def bfsWalk : Nat → List PyStmt → List PyStmt
  | 0, _ => []
  | _ + 1, [] => []
  | fuel + 1, s :: rest => s :: bfsWalk fuel (rest ++ pyChildren s)

/-- The test of a TYPE_CHECKING guard: an `Attribute` whose `attr` is
`TYPE_CHECKING` or a `Name` whose `id` is `TYPE_CHECKING`. -/
def isTypeCheckingTest : PyExpr → Bool
  | .attribute a => a = "TYPE_CHECKING"
  | .name id => id = "TYPE_CHECKING"
  | .otherExpr => false

/-- The `range(start, end + 1)` pairs of TYPE_CHECKING block bodies,
collected over the walked nodes: for each `If` with a TYPE_CHECKING test and
a nonempty body, `start = body[0].lineno` and
`end = body[-1].end_lineno or body[-1].lineno`. -/
def typeCheckingRanges (nodes : List PyStmt) : List (Nat × Nat) :=
  nodes.foldl (fun acc s =>
    match s with
    | .ifStmt test body _ _ _ =>
        if isTypeCheckingTest test then
          match body with
          | [] => acc
          | b :: rest =>
              let lastStmt := (b :: rest).getLast (List.cons_ne_nil b rest)
              let start := stmtLineno b
              let stop := (stmtEndLineno lastStmt).getD (stmtLineno lastStmt)
              acc ++ [(start, stop)]
        else acc
    | _ => acc) []

/-- `_in_type_checking(lineno)`: membership in any collected range. -/
def inTypeChecking (ranges : List (Nat × Nat)) (lineno : Nat) : Bool :=
  ranges.any (fun r => r.1 ≤ lineno && lineno ≤ r.2)

/-- `"." * level` — the relative-import dot prefix. -/
def dotPrefix (level : Nat) : String := String.mk (List.replicate level '.')

/-- `_extract_python_imports`: `parsed = none` models `ast.parse` raising
`SyntaxError`, in which case the `except SyntaxError` branch returns the
(still empty) import list.  Otherwise both passes walk the tree: the first
collects TYPE_CHECKING line ranges, the second collects one record per
imported name. -/
def extract_python_imports (file_path : String) (parsed : Option (List PyStmt)) :
    List Import :=
  match parsed with
  | none => []
  | some body =>
      let nodes := bfsWalk (stmtListSize body + 1) body
      let ranges := typeCheckingRanges nodes
      nodes.foldl (fun acc s =>
        match s with
        | .importStmt names ln _ =>
            acc ++ names.map (fun a =>
              ⟨file_path, a.name, a.asname, inTypeChecking ranges ln, ln⟩)
        | .importFrom module level names ln _ =>
            let m := module.getD ("")
            let target := if m ≠ "" then dotPrefix level ++ m else dotPrefix level
            acc ++ names.map (fun a =>
              ⟨file_path, target, a.asname, inTypeChecking ranges ln, ln⟩)
        | _ => acc) []

/-! ### Rust classification and resolution (`lib/imports.py`) -/

/-- The Rust branch of `is_internal_import` (lines 344–349): `crate::`,
`super::` and `self::` prefixes are internal; otherwise the import is
reported internal unless its top-level segment is one of the built-in
crates `std`, `core`, `alloc`, `proc_macro`. -/
def is_internal_import_rust (target : String) : Bool :=
  if strStartsWith target ("crate::") || strStartsWith target ("super::")
      || strStartsWith target ("self::") then
    true
  else
    let top := ((splitOnColonColon target.toList).map String.mk).headI
    if top = "std" ∨ top = "core" ∨ top = "alloc" ∨ top = "proc_macro" then false
    else true

/-- `os.path.dirname` for clean `/`-separated relative paths (no trailing
slash): everything before the last `/`, or the empty string. -/
def dirname (p : String) : String :=
  let comps := strSplitChar p '/'
  if comps.length ≤ 1 then ("")
  else String.intercalate ("/") comps.dropLast

/-- `os.path.join(a, b)` for a relative second component. -/
def pathJoin (a b : String) : String :=
  if a = "" then b else a ++ ("/") ++ b

/-- The candidate checks at the end of `_resolve_rust_import`: a same-named
`.rs` file first, then a `mod.rs` index inside the directory.  `isFile` is
the `os.path.isfile` oracle. -/
def rustCandidate (isFile : String → Bool) (base : String) (parts : List String) :
    Option String :=
  let path := parts.foldl pathJoin base
  if isFile (path ++ (".rs")) then some (path ++ (".rs"))
  else if isFile (pathJoin path ("mod.rs")) then some (pathJoin path ("mod.rs"))
  else none

/-- `_resolve_rust_import` (lines 471–498): dispatch on the first segment of
`target.replace("::", "/").split("/")`; a bare first segment (not `crate`,
`super` or `self`) returns `None` unconditionally. -/
def resolve_rust_import (isFile : String → Bool)
    (target source_file root : String) : Option String :=
  match (splitOnChar '/' (replaceColonColon target.toList)).map String.mk with
  | [] => none
  | p0 :: rest =>
      if p0 = "crate" then rustCandidate isFile (pathJoin root ("src")) rest
      else if p0 = "super" then rustCandidate isFile (dirname (dirname source_file)) rest
      else if p0 = "self" then rustCandidate isFile (dirname source_file) rest
      else none

/-! ### Graph building (`circular-deps.py`, `build_import_graph`)

The filesystem walk and the per-language classification/resolution are
abstracted: each walked file is a `FileRecord` holding its root-relative
path and the outcome of `extract_imports` (`Except.error` models an
exception escaping `extract_imports`, which the builder catches), and a
`Resolver` bundles `is_internal_import` and
`os.path.relpath(resolve_import_to_file(...), root)` as oracles over the
source file and the target string (`root` and the language are fixed by the
run).  `detect_language` inspects only the file extension, which is the same
for the absolute and the root-relative path. -/

/-- One entry of the report error list: `{"file": ..., "error": ...}`. -/
structure ErrEntry where
  file : String
  error : String
deriving Repr, DecidableEq

/-- A file yielded by `walk_source_files`, with its extraction outcome. -/
structure FileRecord where
  rel : String
  extraction : Except String (List Import)

/-- Oracles for `is_internal_import` and resolution-plus-`relpath`. -/
structure Resolver where
  is_internal : String → String → Bool
  resolve : String → String → Option String

/-- The mutable state of `build_import_graph`. -/
structure BuildState where
  forward : Dict
  reverse : Dict
  errors : List ErrEntry

/-- The body of the `for imp in imports` loop: skip type-only imports, skip
non-internal targets, skip unresolvable targets; otherwise add the forward
edge, the mirrored reverse edge, and register the target node. -/
def process_import (rv : Resolver) (rel : String) (st : BuildState) (imp : Import) :
    BuildState :=
  if imp.is_type_only then st
  else if ¬ rv.is_internal rel imp.target then st
  else
    match rv.resolve rel imp.target with
    | none => st
    | some target_rel =>
        let fwd := addEdge st.forward rel target_rel
        let rev := addEdge st.reverse target_rel rel
        let fwd := ensureKey fwd target_rel
        ⟨fwd, rev, st.errors⟩

/-- The body of the walk loop: skip files with no detected language (before
any node registration), register the node, then either record an extraction
error or process the imports. -/
def process_file (rv : Resolver) (st : BuildState) (f : FileRecord) : BuildState :=
  match detect_language f.rel with
  | none => st
  | some _ =>
      let st1 : BuildState := ⟨ensureKey st.forward f.rel, st.reverse, st.errors⟩
      match f.extraction with
      | .error e => ⟨st1.forward, st1.reverse, st1.errors ++ [⟨f.rel, e⟩]⟩
      | .ok imports => imports.foldl (process_import rv f.rel) st1

/-- `build_import_graph`: fold the walk output through `process_file`. -/
def build_import_graph (files : List FileRecord) (rv : Resolver) : BuildState :=
  files.foldl (process_file rv) ⟨[], [], []⟩

/-! ### Tarjan SCC (`circular-deps.py`, `tarjan_scc`)

The recursive `strongconnect` is embedded with an explicit fuel argument;
the fuel passed by `tarjan_scc` exceeds the recursion depth (each nested
call is made on a node without an index and immediately assigns it one, so
the depth is bounded by the number of distinct node names).  The Python
stack appends/pops at the end of a list; here the top of the stack is the
head. -/

/-- Assoc-map lookup for `index` / `lowlink`. -/
def assocFind (m : List (String × Nat)) (k : String) : Option Nat :=
  match m with
  | [] => none
  | (k', v) :: rest => if k' = k then some v else assocFind rest k

/-- Assoc-map update for `index` / `lowlink`. -/
def assocSet (m : List (String × Nat)) (k : String) (v : Nat) :
    List (String × Nat) :=
  match m with
  | [] => [(k, v)]
  | (k', v') :: rest =>
      if k' = k then (k, v) :: rest else (k', v') :: assocSet rest k v

/-- The state threaded through `strongconnect`. -/
structure TarjanState where
  counter : Nat
  stack : List String
  on_stack : List String
  index : List (String × Nat)
  lowlink : List (String × Nat)
  sccs : List (List String)

/-- The `while True` pop loop: pop stack entries into the component until
the root node is popped; returns the remaining stack and the component in
pop order. -/
def popUntil (node : String) : List String → List String × List String
  | [] => ([], [])
  | w :: rest =>
      if w = node then (rest, [w])
      else
        let (r, s) := popUntil node rest
        (r, w :: s)

/-- The `for neighbor in graph.get(node, set())` loop of `strongconnect`:
recurse (`visit`) on unvisited neighbors and fold lowlinks; take the index
of neighbors still on the stack.  `visit` is the recursive call of
`strongconnect` at the remaining fuel. -/
def tarjanNeighbors (visit : String → TarjanState → TarjanState) (node : String) :
    List String → TarjanState → TarjanState
  | [], st => st
  | neighbor :: rest, st =>
      let st' :=
        if (assocFind st.index neighbor).isNone then
          let stv := visit neighbor st
          let low := min ((assocFind stv.lowlink node).getD 0)
            ((assocFind stv.lowlink neighbor).getD 0)
          { stv with lowlink := assocSet stv.lowlink node low }
        else if neighbor ∈ st.on_stack then
          let low := min ((assocFind st.lowlink node).getD 0)
            ((assocFind st.index neighbor).getD 0)
          { st with lowlink := assocSet st.lowlink node low }
        else st
      tarjanNeighbors visit node rest st'

/-- `strongconnect(node)`.  Fuel `0` returns the state unchanged; it is
never reached for the fuel supplied by `tarjan_scc` (each nested call
visits a node without an index and immediately assigns it one). -/
def strongconnect (g : Dict) : Nat → String → TarjanState → TarjanState
  | 0, _, st => st
  | fuel + 1, node, st =>
      let st1 := { st with
        index := assocSet st.index node st.counter
        lowlink := assocSet st.lowlink node st.counter
        counter := st.counter + 1
        stack := node :: st.stack
        on_stack := node :: st.on_stack }
      let st2 := tarjanNeighbors (strongconnect g fuel) node (lookupSet g node) st1
      if assocFind st2.lowlink node = assocFind st2.index node then
        let pr := popUntil node st2.stack
        { st2 with
          stack := pr.1
          on_stack := st2.on_stack.filter (fun w => ¬ w ∈ pr.2)
          sccs := if pr.2.length > 1 then st2.sccs ++ [pr.2] else st2.sccs }
      else st2

/-- Fuel bound: more than every node name occurring in the graph. -/
def tarjanFuel (g : Dict) : Nat :=
  1 + g.length + g.foldl (fun n p => n + p.2.length) 0

/-- `tarjan_scc`: run `strongconnect` from every unvisited key, in dict
insertion order; only components with more than one member are kept (the
filter sits inside `strongconnect`). -/
def tarjan_scc (g : Dict) : List (List String) :=
  let final := (dictKeys g).foldl (fun st node =>
    if (assocFind st.index node).isNone then strongconnect g (tarjanFuel g) node st
    else st) ⟨0, [], [], [], [], []⟩
  final.sccs

/-! ### Elementary-cycle extraction (`extract_cycles_from_scc`) -/

/-- `frozenset` equality of the node lists backing two cycles. -/
def setEq (a b : List String) : Bool :=
  a.all (fun x => x ∈ b) && b.all (fun x => x ∈ a)

/-- Result of scanning the neighbors of the dequeued node: queue additions
(in append order), updated `visited`, updated `seen_cycle_sets` and
`cycles`, and the `found` flag. -/
structure ScanResult where
  adds : List (String × List String)
  visited : List String
  seen : List (List String)
  cycles : List (List String)
  found : Bool

/-- The `for neighbor in graph.get(current, set())` loop body: a neighbor
equal to `start` on a path of length `> 1` closes a cycle (recorded unless
an identical node set was already seen) and breaks; otherwise unvisited
in-component neighbors are enqueued with the extended path. -/
def scan_neighbors (start : String) (sccSet : List String) (path : List String) :
    List String → List String → List (List String) → List (List String) →
    ScanResult
  | [], visited, seen, cycles => ⟨[], visited, seen, cycles, false⟩
  | nb :: rest, visited, seen, cycles =>
      if nb = start ∧ path.length > 1 then
        if seen.any (fun s => setEq s path) then ⟨[], visited, seen, cycles, true⟩
        else ⟨[], visited, seen ++ [path], cycles ++ [path], true⟩
      else if nb ∈ sccSet ∧ ¬ nb ∈ visited then
        let r := scan_neighbors start sccSet path rest (visited ++ [nb]) seen cycles
        ⟨(nb, path ++ [nb]) :: r.adds, r.visited, r.seen, r.cycles, r.found⟩
      else scan_neighbors start sccSet path rest visited seen cycles

/-- The `while queue and not found` loop, with fuel; the fuel supplied
exceeds the number of possible dequeues (each enqueue is tied to a fresh
`visited` member of the component). -/
def bfs_loop (g : Dict) (start : String) (sccSet : List String) :
    Nat → List (String × List String) → List String →
    List (List String) → List (List String) →
    List (List String) × List (List String)
  | 0, _, _, seen, cycles => (seen, cycles)
  | _ + 1, [], _, seen, cycles => (seen, cycles)
  | fuel + 1, (current, path) :: rest, visited, seen, cycles =>
      let r := scan_neighbors start sccSet path (lookupSet g current) visited seen cycles
      if r.found then (r.seen, r.cycles)
      else bfs_loop g start sccSet fuel (rest ++ r.adds) r.visited r.seen r.cycles

/-- `extract_cycles_from_scc`: for components of size ≤ 5, breadth-first
search from every member for the shortest cycle back to itself, with
node-set deduplication shared across starts; `[scc]` as a fallback when no
cycle was collected, and for components of size > 5. -/
def extract_cycles_from_scc (scc : List String) (g : Dict) : List (List String) :=
  if scc.length ≤ 5 then
    let res := scc.foldl
      (fun (p : List (List String) × List (List String)) start =>
        bfs_loop g start scc (scc.length + 2) [(start, [start])] [start] p.1 p.2)
      ([], [])
    if res.2 = [] then [scc] else res.2
  else [scc]

/-- A `{"files": ..., "length": ...}` cycle record of the report. -/
structure CycleRecord where
  files : List String
  length : Nat
deriving Repr, DecidableEq

/-- The cycle list assembled in `analyze` (lines 305–312): every extracted
cycle of every component, in discovery order. -/
def cycles_from_graph (g : Dict) : List CycleRecord :=
  (tarjan_scc g).foldl (fun acc scc =>
    (extract_cycles_from_scc scc g).foldl
      (fun acc c => acc ++ [⟨c, c.length⟩]) acc) []

/-! ### God-module detection (`detect_god_modules`) -/

/-- Python code-point comparison of strings (`sorted` on `str`), as a
kernel-computable Boolean on character lists. -/
def charListLe : List Char → List Char → Bool
  | [], _ => true
  | _ :: _, [] => false
  | a :: as, b :: bs =>
      if a.toNat = b.toNat then charListLe as bs
      else decide (a.toNat < b.toNat)

/-- Python string `<=`, the order used by `sorted` on importer lists. -/
def pyStrLe (a b : String) : Prop := charListLe a.toList b.toList = true

instance : DecidableRel pyStrLe :=
  fun a b => inferInstanceAs (Decidable (charListLe a.toList b.toList = true))

theorem charListLe_total : ∀ (x y : List Char),
    charListLe x y = true ∨ charListLe y x = true
  | [], _ => Or.inl rfl
  | _ :: _, [] => Or.inr rfl
  | a :: as, b :: bs => by
      by_cases h : a.toNat = b.toNat
      · have h2 : b.toNat = a.toNat := h.symm
        rcases charListLe_total as bs with ht | ht
        · left
          simp [charListLe, h, ht]
        · right
          simp [charListLe, h2, ht]
      · have h2 : ¬ b.toNat = a.toNat := fun hh => h hh.symm
        rcases Nat.lt_or_ge a.toNat b.toNat with hlt | hge
        · left
          simp [charListLe, h, hlt]
        · have hlt : b.toNat < a.toNat := Nat.lt_of_le_of_ne hge h2
          right
          simp [charListLe, h2, hlt]

theorem charListLe_trans : ∀ (x y z : List Char),
    charListLe x y = true → charListLe y z = true → charListLe x z = true
  | [], _, _, _, _ => rfl
  | _ :: _, [], _, h1, _ => by simp [charListLe] at h1
  | _ :: _, _ :: _, [], _, h2 => by simp [charListLe] at h2
  | a :: as, b :: bs, c :: cs, h1, h2 => by
      simp only [charListLe] at h1 h2 ⊢
      by_cases hab : a.toNat = b.toNat
      · rw [if_pos hab] at h1
        by_cases hbc : b.toNat = c.toNat
        · rw [if_pos hbc] at h2
          rw [if_pos (hab.trans hbc)]
          exact charListLe_trans as bs cs h1 h2
        · rw [if_neg hbc] at h2
          have hv : b.toNat < c.toNat := of_decide_eq_true h2
          have hac : ¬ a.toNat = c.toNat := by omega
          rw [if_neg hac]
          exact decide_eq_true (by omega)
      · rw [if_neg hab] at h1
        have hv : a.toNat < b.toNat := of_decide_eq_true h1
        by_cases hbc : b.toNat = c.toNat
        · have hac : ¬ a.toNat = c.toNat := by omega
          rw [if_neg hac]
          exact decide_eq_true (by omega)
        · rw [if_neg hbc] at h2
          have hv2 : b.toNat < c.toNat := of_decide_eq_true h2
          have hac : ¬ a.toNat = c.toNat := by omega
          rw [if_neg hac]
          exact decide_eq_true (by omega)

theorem charListLe_antisymm : ∀ (x y : List Char),
    charListLe x y = true → charListLe y x = true → x = y
  | [], [], _, _ => rfl
  | [], _ :: _, _, h2 => by simp [charListLe] at h2
  | _ :: _, [], h1, _ => by simp [charListLe] at h1
  | a :: as, b :: bs, h1, h2 => by
      simp only [charListLe] at h1 h2
      by_cases hab : a.toNat = b.toNat
      · rw [if_pos hab] at h1
        rw [if_pos hab.symm] at h2
        have heq : a = b := Char.ext (UInt32.ext hab)
        rw [heq, charListLe_antisymm as bs h1 h2]
      · exfalso
        rw [if_neg hab] at h1
        rw [if_neg (fun hh => hab hh.symm)] at h2
        have hv1 : a.toNat < b.toNat := of_decide_eq_true h1
        have hv2 : b.toNat < a.toNat := of_decide_eq_true h2
        omega

theorem string_eq_of_toList (a b : String) (h : a.toList = b.toList) : a = b := by
  cases a
  cases b
  exact congrArg String.mk h

instance : IsTotal String pyStrLe :=
  ⟨fun a b => charListLe_total a.toList b.toList⟩

instance : IsTrans String pyStrLe :=
  ⟨fun a b c => charListLe_trans a.toList b.toList c.toList⟩

instance : IsAntisymm String pyStrLe :=
  ⟨fun a b h1 h2 => string_eq_of_toList a b (charListLe_antisymm _ _ h1 h2)⟩


/-- `round(x)` with Python semantics on exactly representable values:
round half to even. -/
def roundHalfEven (q : ℚ) : ℤ :=
  let f := ⌊q⌋
  if q - f < 1 / 2 then f
  else if q - f > 1 / 2 then f + 1
  else if f % 2 = 0 then f else f + 1

/-- `round(x, 1)`. -/
def round1 (q : ℚ) : ℚ := (roundHalfEven (q * 10) : ℚ) / 10

/-- `statistics.median`: sort, take the middle element for odd length, the
mean of the two middle elements for even length (the empty case raises in
Python but is guarded away by the caller; `0` here is arbitrary). -/
def median (values : List ℚ) : ℚ :=
  let s := List.insertionSort (fun a b : ℚ => a ≤ b) values
  let n := s.length
  if n % 2 = 1 then s.getD (n / 2) 0
  else (s.getD (n / 2 - 1) 0 + s.getD (n / 2) 0) / 2

/-- A `god_modules` report entry. -/
structure GodModule where
  file : String
  importer_count : Nat
  importers : List String
  median_in_degree : ℚ
  threshold : ℚ
deriving Repr, DecidableEq

/-- Descending-count comparison used by
`sorted(in_degrees.items(), key=lambda x: -x[1])`; `insertionSort` is
stable, like Python `sorted`. -/
def byDescCount (x y : String × Nat) : Prop := y.2 ≤ x.2

instance : DecidableRel byDescCount := fun x y => Nat.decLe y.2 x.2

instance : IsTotal (String × Nat) byDescCount :=
  ⟨fun a b => Nat.le_total b.2 a.2⟩

instance : IsTrans (String × Nat) byDescCount :=
  ⟨fun _ _ _ h1 h2 => Nat.le_trans h2 h1⟩

/-- `detect_god_modules(reverse_graph, threshold_multiplier, min_importers)`
(`3.0` and `5` being the defaults).  The dead second guard (`if not values`)
of the source is omitted: `values` is empty exactly when `in_degrees` is. -/
def detect_god_modules (reverse_graph : Dict)
    (threshold_multiplier min_importers : ℚ) : List GodModule :=
  let inDegrees : List (String × Nat) :=
    reverse_graph.map (fun p => (p.1, p.2.length))
  if inDegrees = [] then []
  else
    let values : List ℚ := inDegrees.map (fun p => (p.2 : ℚ))
    let medianDegree : ℚ := if values = [] then 0 else median values
    let threshold : ℚ := max (medianDegree * threshold_multiplier) min_importers
    let sortedDegrees := List.insertionSort byDescCount inDegrees
    sortedDegrees.foldl (fun acc p =>
      if (p.2 : ℚ) > threshold then
        acc ++ [⟨p.1, p.2,
          List.insertionSort pyStrLe (lookupSet reverse_graph p.1),
          round1 medianDegree, round1 threshold⟩]
      else acc) []

/-! ### Layering-violation detection (`LAYER_KEYWORDS`, `_infer_layer`,
`detect_layering_violations`) -/

/-- The `LAYER_KEYWORDS` table, as a lookup function (`-1` is the excluded
test layer). -/
def LAYER_KEYWORDS (s : String) : Option Int :=
  if s = "utils" || s = "util" || s = "helpers" || s = "helper" || s = "lib"
      || s = "common" || s = "shared" || s = "config" || s = "settings"
      || s = "constants" then some 0
  else if s = "core" || s = "models" || s = "types" || s = "schemas"
      || s = "entities" then some 1
  else if s = "services" || s = "tools" || s = "providers"
      || s = "repositories" || s = "repo" then some 2
  else if s = "agents" || s = "handlers" || s = "controllers" || s = "views"
      || s = "routes" then some 3
  else if s = "orchestration" || s = "pipeline" || s = "workflows"
      || s = "app" || s = "commands" then some 4
  else if s = "tests" || s = "test" || s = "__tests__" || s = "spec" then
    some (-1)
  else none

/-- `Path(file_path).parts` for clean relative `/`-separated paths. -/
def pathParts (p : String) : List String :=
  (strSplitChar p '/').filter (fun c => c ≠ "")

/-- First keyword match over a list of path components. -/
def inferLayerParts : List String → Option Int
  | [] => none
  | part :: rest =>
      match LAYER_KEYWORDS (strToLower part) with
      | some l => some l
      | none => inferLayerParts rest

/-- `_infer_layer`: the first path component whose lowercase form is a layer
keyword decides the layer. -/
def infer_layer (file_path : String) : Option Int :=
  inferLayerParts (pathParts file_path)

/-- First matching component itself, in original case (`_layer_name`). -/
def layerNameParts : List String → String
  | [] => "unknown"
  | part :: rest =>
      match LAYER_KEYWORDS (strToLower part) with
      | some _ => part
      | none => layerNameParts rest

/-- `_layer_name`. -/
def layer_name (file_path : String) : String :=
  layerNameParts (pathParts file_path)

/-- The single-quote character, used by the violation description. -/
def sq : String := String.mk ['\x27']

/-- The f-string description of a violation. -/
def violationDescription (source target : String) : String :=
  "Lower layer " ++ sq ++ layer_name source ++ sq
    ++ " imports from higher layer " ++ sq ++ layer_name target ++ sq

/-- A `layering_violations` report entry. -/
structure LayeringViolation where
  source : String
  source_layer : Int
  target : String
  target_layer : Int
  description : String
deriving Repr, DecidableEq

/-- The violation record for a single forward edge, when the edge violates
layering; empty otherwise.  Mirrors the innermost conditionals of
`detect_layering_violations`. -/
def edgeViolations (source : String) (source_layer : Int) (target : String) :
    List LayeringViolation :=
  match infer_layer target with
  | none => []
  | some target_layer =>
      if target_layer = -1 then []
      else if source_layer < target_layer then
        [⟨source, source_layer, target, target_layer,
          violationDescription source target⟩]
      else []

/-- `detect_layering_violations`: skip sources with unknown or test layer,
then scan each outgoing edge. -/
def detect_layering_violations (graph : Dict) : List LayeringViolation :=
  graph.foldl (fun acc p =>
    match infer_layer p.1 with
    | none => acc
    | some source_layer =>
        if source_layer = -1 then acc
        else p.2.foldl (fun acc t => acc ++ edgeViolations p.1 source_layer t) acc)
    []

/-! ### Generic fold lemmas -/

theorem foldl_append_eq {α β : Type} (f : α → List β) :
    ∀ (l : List α) (acc : List β),
      l.foldl (fun a x => a ++ f x) acc = acc ++ l.flatMap f
  | [], acc => by simp
  | x :: rest, acc => by
      rw [List.foldl_cons, foldl_append_eq f rest (acc ++ f x)]
      simp

theorem foldl_filter_map {α β : Type} (c : α → Prop) [DecidablePred c]
    (f : α → β) :
    ∀ (l : List α) (acc : List β),
      l.foldl (fun a x => if c x then a ++ [f x] else a) acc
        = acc ++ (l.filter (fun x => decide (c x))).map f
  | [], acc => by simp
  | x :: rest, acc => by
      rw [List.foldl_cons, foldl_filter_map c f rest]
      by_cases h : c x <;> simp [h]

theorem foldl_preserve {α β : Type} (P : α → Prop) (f : α → β → α)
    (hf : ∀ st x, P st → P (f st x)) :
    ∀ (l : List β) (st : α), P st → P (l.foldl f st)
  | [], _, h => h
  | x :: rest, st, h => foldl_preserve P f hf rest (f st x) (hf st x h)

/-! ### Dictionary lemmas -/

theorem dictFind_append (d e : Dict) (k : String) :
    dictFind (d ++ e) k
      = match dictFind d k with
        | some v => some v
        | none => dictFind e k := by
  induction d with
  | nil => simp [dictFind]
  | cons p rest ih =>
      by_cases h : p.1 = k <;> simp [dictFind, h, ih]

theorem lookupSet_nil (k : String) : lookupSet ([] : Dict) k = [] := rfl

theorem dictFind_isSome_iff_mem (d : Dict) (k : String) :
    (dictFind d k).isSome = true ↔ k ∈ dictKeys d := by
  induction d with
  | nil => simp [dictFind, dictKeys]
  | cons p rest ih =>
      by_cases h : p.1 = k <;> simp [dictFind, dictKeys, h, ih]
      exact fun hk => (h hk.symm).elim

theorem dictFind_ensureKey (d : Dict) (k a : String) :
    dictFind (ensureKey d k) a
      = if (dictFind d a).isSome then dictFind d a
        else if a = k then some [] else none := by
  unfold ensureKey
  by_cases hk : (dictFind d k).isSome
  · rw [if_pos hk]
    by_cases ha : (dictFind d a).isSome
    · rw [if_pos ha]
    · rw [if_neg ha]
      by_cases hak : a = k
      · subst hak; exact absurd hk ha
      · rw [if_neg hak, Option.not_isSome_iff_eq_none.mp ha]
  · rw [if_neg hk, dictFind_append]
    by_cases ha : (dictFind d a).isSome
    · obtain ⟨v, hv⟩ := Option.isSome_iff_exists.mp ha
      simp [hv]
    · rw [Option.not_isSome_iff_eq_none.mp ha]
      by_cases hak : a = k
      · subst hak; simp [dictFind]
      · have hka : ¬ k = a := fun hh => hak hh.symm
        simp [dictFind, hka, hak]

theorem lookupSet_ensureKey (d : Dict) (k a : String) :
    lookupSet (ensureKey d k) a = lookupSet d a := by
  unfold lookupSet
  rw [dictFind_ensureKey]
  by_cases ha : (dictFind d a).isSome
  · rw [if_pos ha]
  · rw [if_neg ha, Option.not_isSome_iff_eq_none.mp ha]
    by_cases hak : a = k
    · rw [if_pos hak]; rfl
    · rw [if_neg hak]

theorem mem_keys_ensureKey (d : Dict) (k a : String) :
    a ∈ dictKeys (ensureKey d k) ↔ a ∈ dictKeys d ∨ a = k := by
  unfold ensureKey
  by_cases hk : (dictFind d k).isSome
  · rw [if_pos hk]
    constructor
    · exact Or.inl
    · rintro (h | rfl)
      · exact h
      · exact (dictFind_isSome_iff_mem d a).mp hk
  · rw [if_neg hk]
    unfold dictKeys
    simp

theorem mem_insertVal (s : List String) (v x : String) :
    x ∈ insertVal s v ↔ x ∈ s ∨ x = v := by
  unfold insertVal
  by_cases h : v ∈ s
  · simp only [h, if_true]
    constructor
    · exact Or.inl
    · rintro (hx | rfl) <;> [exact hx; exact h]
  · simp [h]

theorem nodup_insertVal (s : List String) (v : String) (h : s.Nodup) :
    (insertVal s v).Nodup := by
  unfold insertVal
  by_cases hv : v ∈ s
  · rw [if_pos hv]; exact h
  · rw [if_neg hv, List.nodup_append]
    refine ⟨h, List.nodup_singleton v, ?_⟩
    intro a ha hav
    rw [List.mem_singleton] at hav
    subst hav
    exact hv ha

theorem dictFind_addEdge (d : Dict) (k v a : String) :
    dictFind (addEdge d k v) a
      = if a = k then some (insertVal (lookupSet d k) v) else dictFind d a := by
  induction d with
  | nil =>
      by_cases h : a = k
      · subst h
        simp [addEdge, dictFind, lookupSet, insertVal]
      · have hka : ¬ k = a := fun hh => h hh.symm
        simp [addEdge, dictFind, h, hka]
  | cons p rest ih =>
      by_cases hpk : p.1 = k
      · subst hpk
        by_cases hap : a = p.1
        · simp [addEdge, dictFind, lookupSet, hap]
        · have hpa : ¬ p.1 = a := fun hh => hap hh.symm
          simp [addEdge, dictFind, lookupSet, hap, hpa]
      · by_cases hap : p.1 = a
        · have hak : ¬ a = k := fun h => hpk (hap.trans h)
          simp [addEdge, dictFind, hpk, hap, hak]
        · simp [addEdge, dictFind, hpk, hap, ih, lookupSet]

theorem lookupSet_addEdge (d : Dict) (k v a : String) :
    lookupSet (addEdge d k v) a
      = if a = k then insertVal (lookupSet d k) v else lookupSet d a := by
  unfold lookupSet
  rw [dictFind_addEdge]
  by_cases h : a = k
  · rw [if_pos h, if_pos h]
    rfl
  · rw [if_neg h, if_neg h]

theorem mem_keys_addEdge (d : Dict) (k v a : String) :
    a ∈ dictKeys (addEdge d k v) ↔ a ∈ dictKeys d ∨ a = k := by
  rw [← dictFind_isSome_iff_mem, dictFind_addEdge, ← dictFind_isSome_iff_mem]
  by_cases h : a = k <;> simp [h]

theorem lookupSet_sub_keys (d : Dict) (a b : String)
    (h : b ∈ lookupSet d a) : a ∈ dictKeys d := by
  rw [← dictFind_isSome_iff_mem]
  unfold lookupSet at h
  cases hf : dictFind d a with
  | none => rw [hf] at h; simp at h
  | some v => simp [hf]

theorem valsNodup_addEdge (d : Dict) (k v : String)
    (h : ∀ p ∈ d, (p.2 : List String).Nodup) :
    ∀ p ∈ addEdge d k v, (p.2 : List String).Nodup := by
  induction d with
  | nil =>
      intro p hp
      simp only [addEdge, List.mem_singleton] at hp
      subst hp
      exact nodup_insertVal [] v List.nodup_nil
  | cons q rest ih =>
      intro p hp
      by_cases hqk : q.1 = k
      · simp only [addEdge, hqk, if_true] at hp
        rcases List.mem_cons.mp hp with rfl | hrest
        · exact nodup_insertVal _ _ (h q (List.mem_cons_self q rest))
        · exact h p (List.mem_cons_of_mem q hrest)
      · simp only [addEdge, hqk, if_false] at hp
        rcases List.mem_cons.mp hp with rfl | hrest
        · exact h q (List.mem_cons_self q rest)
        · exact ih (fun r hr => h r (List.mem_cons_of_mem q hr)) p hrest

theorem valsNodup_ensureKey (d : Dict) (k : String)
    (h : ∀ p ∈ d, (p.2 : List String).Nodup) :
    ∀ p ∈ ensureKey d k, (p.2 : List String).Nodup := by
  unfold ensureKey
  by_cases hk : (dictFind d k).isSome
  · simpa [hk] using h
  · simp only [hk, if_false]
    intro p hp
    rcases List.mem_append.mp hp with hd | htl
    · exact h p hd
    · simp only [List.mem_singleton] at htl
      subst htl
      exact List.nodup_nil

/-! ### Builder invariants -/

/-- A non-type-only import of the list that is classified internal and
resolves to `b` (the conditions guarding an edge addition). -/
def ImportEdge (rv : Resolver) (imps : List Import) (a b : String) : Prop :=
  ∃ imp ∈ imps, imp.is_type_only = false ∧ rv.is_internal a imp.target = true ∧
    rv.resolve a imp.target = some b

/-- Provenance of a forward edge: some walked file with relative path `a`
extracted successfully and one of its imports produced the edge to `b`. -/
def EdgeProv (files : List FileRecord) (rv : Resolver) (a b : String) : Prop :=
  ∃ f ∈ files, f.rel = a ∧
    ∃ imps, f.extraction = Except.ok imps ∧ ImportEdge rv imps a b

/-- The structural invariant of the two adjacency maps: the reverse map is
the exact transpose of the forward map, all adjacency sets are
duplicate-free, endpoints of forward edges are registered forward keys, and
every reverse key is a forward key. -/
def GraphInv (st : BuildState) : Prop :=
  (∀ a b, b ∈ lookupSet st.forward a ↔ a ∈ lookupSet st.reverse b) ∧
  (∀ p ∈ st.forward, (p.2 : List String).Nodup) ∧
  (∀ p ∈ st.reverse, (p.2 : List String).Nodup) ∧
  (∀ a b, b ∈ lookupSet st.forward a →
    a ∈ dictKeys st.forward ∧ b ∈ dictKeys st.forward) ∧
  (∀ k, k ∈ dictKeys st.reverse → k ∈ dictKeys st.forward)

theorem process_import_cases (rv : Resolver) (rel : String) (st : BuildState)
    (imp : Import) :
    process_import rv rel st imp = st ∨
    ∃ tgt, imp.is_type_only = false ∧ rv.is_internal rel imp.target = true ∧
      rv.resolve rel imp.target = some tgt ∧
      process_import rv rel st imp =
        ⟨ensureKey (addEdge st.forward rel tgt) tgt,
          addEdge st.reverse tgt rel, st.errors⟩ := by
  unfold process_import
  by_cases h1 : imp.is_type_only = true
  · left; simp [h1]
  · by_cases h2 : rv.is_internal rel imp.target = true
    · cases hres : rv.resolve rel imp.target with
      | none => left; simp [h1, h2, hres]
      | some tgt =>
          right
          refine ⟨tgt, Bool.not_eq_true _ ▸ h1, h2, rfl, ?_⟩
          simp [h1, h2]
    · left
      simp [h1, h2]

theorem transposed_addPair (fwd rev : Dict) (rel tgt : String)
    (ht : ∀ a b, b ∈ lookupSet fwd a ↔ a ∈ lookupSet rev b) :
    ∀ a b, b ∈ lookupSet (ensureKey (addEdge fwd rel tgt) tgt) a
      ↔ a ∈ lookupSet (addEdge rev tgt rel) b := by
  intro a b
  rw [lookupSet_ensureKey, lookupSet_addEdge, lookupSet_addEdge]
  by_cases ha : a = rel
  · subst ha
    by_cases hb : b = tgt
    · subst hb
      rw [if_pos rfl, if_pos rfl, mem_insertVal, mem_insertVal]
      exact ⟨fun _ => Or.inr rfl, fun _ => Or.inr rfl⟩
    · rw [if_pos rfl, if_neg hb, mem_insertVal]
      constructor
      · rintro (h | rfl)
        · exact (ht _ _).mp h
        · exact absurd rfl hb
      · intro h
        exact Or.inl ((ht _ _).mpr h)
  · rw [if_neg ha]
    by_cases hb : b = tgt
    · subst hb
      rw [if_pos rfl, mem_insertVal]
      constructor
      · intro h
        exact Or.inl ((ht _ _).mp h)
      · rintro (h | rfl)
        · exact (ht _ _).mpr h
        · exact absurd rfl ha
    · rw [if_neg hb]
      exact ht a b

theorem edges_addPair_sub (fwd : Dict) (rel tgt a b : String)
    (h : b ∈ lookupSet (ensureKey (addEdge fwd rel tgt) tgt) a) :
    b ∈ lookupSet fwd a ∨ (a = rel ∧ b = tgt) := by
  rw [lookupSet_ensureKey, lookupSet_addEdge] at h
  by_cases ha : a = rel
  · subst ha
    rw [if_pos rfl, mem_insertVal] at h
    rcases h with h | rfl
    · exact Or.inl h
    · exact Or.inr ⟨rfl, rfl⟩
  · rw [if_neg ha] at h
    exact Or.inl h

theorem closed_addPair (fwd rev : Dict) (rel tgt : String)
    (hc1 : ∀ a b, b ∈ lookupSet fwd a → a ∈ dictKeys fwd ∧ b ∈ dictKeys fwd)
    (hc2 : ∀ k, k ∈ dictKeys rev → k ∈ dictKeys fwd) :
    (∀ a b, b ∈ lookupSet (ensureKey (addEdge fwd rel tgt) tgt) a →
      a ∈ dictKeys (ensureKey (addEdge fwd rel tgt) tgt) ∧
      b ∈ dictKeys (ensureKey (addEdge fwd rel tgt) tgt)) ∧
    (∀ k, k ∈ dictKeys (addEdge rev tgt rel) →
      k ∈ dictKeys (ensureKey (addEdge fwd rel tgt) tgt)) := by
  have hmono : ∀ x, x ∈ dictKeys fwd →
      x ∈ dictKeys (ensureKey (addEdge fwd rel tgt) tgt) := by
    intro x hx
    rw [mem_keys_ensureKey, mem_keys_addEdge]
    exact Or.inl (Or.inl hx)
  have hrel : rel ∈ dictKeys (ensureKey (addEdge fwd rel tgt) tgt) := by
    rw [mem_keys_ensureKey, mem_keys_addEdge]
    exact Or.inl (Or.inr rfl)
  have htgt : tgt ∈ dictKeys (ensureKey (addEdge fwd rel tgt) tgt) := by
    rw [mem_keys_ensureKey]
    exact Or.inr rfl
  constructor
  · intro a b h
    rcases edges_addPair_sub fwd rel tgt a b h with h | ⟨rfl, rfl⟩
    · obtain ⟨ha, hb⟩ := hc1 a b h
      exact ⟨hmono a ha, hmono b hb⟩
    · exact ⟨hrel, htgt⟩
  · intro k hk
    rw [mem_keys_addEdge] at hk
    rcases hk with hk | rfl
    · exact hmono k (hc2 k hk)
    · exact htgt

theorem graphInv_process_import (rv : Resolver) (rel : String)
    (st : BuildState) (imp : Import) (h : GraphInv st) :
    GraphInv (process_import rv rel st imp) := by
  rcases process_import_cases rv rel st imp with heq | ⟨tgt, _, _, _, heq⟩
  · rw [heq]; exact h
  · rw [heq]
    obtain ⟨ht, hn1, hn2, hc1, hc2⟩ := h
    refine ⟨transposed_addPair _ _ _ _ ht, ?_, ?_, ?_⟩
    · exact valsNodup_ensureKey _ _ (valsNodup_addEdge _ _ _ hn1)
    · exact valsNodup_addEdge _ _ _ hn2
    · exact closed_addPair _ _ _ _ hc1 hc2

theorem graphInv_ensureKey (st : BuildState) (k : String) (h : GraphInv st) :
    GraphInv ⟨ensureKey st.forward k, st.reverse, st.errors⟩ := by
  obtain ⟨ht, hn1, hn2, hc1, hc2⟩ := h
  refine ⟨?_, ?_, hn2, ?_, ?_⟩
  · intro a b
    rw [lookupSet_ensureKey]
    exact ht a b
  · exact valsNodup_ensureKey _ _ hn1
  · intro a b hb
    rw [lookupSet_ensureKey] at hb
    obtain ⟨ha, hb'⟩ := hc1 a b hb
    rw [mem_keys_ensureKey, mem_keys_ensureKey]
    exact ⟨Or.inl ha, Or.inl hb'⟩
  · intro x hx
    rw [mem_keys_ensureKey]
    exact Or.inl (hc2 x hx)

theorem graphInv_errors (st : BuildState) (e : List ErrEntry) (h : GraphInv st) :
    GraphInv ⟨st.forward, st.reverse, e⟩ := h

theorem graphInv_process_file (rv : Resolver) (st : BuildState) (f : FileRecord)
    (h : GraphInv st) : GraphInv (process_file rv st f) := by
  unfold process_file
  cases detect_language f.rel with
  | none => exact h
  | some lang =>
      cases hex : f.extraction with
      | error e => exact graphInv_errors _ _ (graphInv_ensureKey st f.rel h)
      | ok imps =>
          exact foldl_preserve GraphInv (process_import rv f.rel)
            (fun st' imp h' => graphInv_process_import rv f.rel st' imp h')
            imps _ (graphInv_ensureKey st f.rel h)

theorem graphInv_initial : GraphInv ⟨[], [], []⟩ := by
  refine ⟨?_, ?_, ?_, ?_, ?_⟩ <;> intro a <;>
    simp [lookupSet, dictFind, dictKeys]

theorem graphInv_build (files : List FileRecord) (rv : Resolver) :
    GraphInv (build_import_graph files rv) :=
  foldl_preserve GraphInv (process_file rv)
    (fun st f h => graphInv_process_file rv st f h) files _ graphInv_initial

/-! ### Edge provenance -/

theorem importEdge_mono (rv : Resolver) (imp : Import) (imps : List Import)
    (a b : String) (h : ImportEdge rv imps a b) :
    ImportEdge rv (imp :: imps) a b := by
  obtain ⟨i, hi, hrest⟩ := h
  exact ⟨i, List.mem_cons_of_mem imp hi, hrest⟩

theorem prov_foldl_imports (rv : Resolver) (rel : String) :
    ∀ (imps : List Import) (st : BuildState) (a b : String),
      b ∈ lookupSet ((imps.foldl (process_import rv rel) st).forward) a →
      b ∈ lookupSet st.forward a ∨ (a = rel ∧ ImportEdge rv imps a b)
  | [], _, _, _, h => Or.inl h
  | imp :: rest, st, a, b, h => by
      rcases prov_foldl_imports rv rel rest (process_import rv rel st imp) a b h
        with h' | ⟨rfl, hie⟩
      · rcases process_import_cases rv rel st imp with heq | ⟨tgt, ht1, ht2, ht3, heq⟩
        · rw [heq] at h'
          exact Or.inl h'
        · rw [heq] at h'
          rcases edges_addPair_sub _ _ _ _ _ h' with h'' | ⟨rfl, rfl⟩
          · exact Or.inl h''
          · exact Or.inr ⟨rfl, imp, List.mem_cons_self imp rest, ht1, ht2, ht3⟩
      · exact Or.inr ⟨rfl, importEdge_mono rv imp rest _ _ hie⟩

theorem prov_process_file (rv : Resolver) (st : BuildState) (f : FileRecord)
    (a b : String) (h : b ∈ lookupSet (process_file rv st f).forward a) :
    b ∈ lookupSet st.forward a ∨
      (f.rel = a ∧ ∃ imps, f.extraction = Except.ok imps ∧ ImportEdge rv imps a b) := by
  unfold process_file at h
  cases hdl : detect_language f.rel with
  | none =>
      rw [hdl] at h
      exact Or.inl h
  | some lang =>
      rw [hdl] at h
      cases hex : f.extraction with
      | error e =>
          rw [hex] at h
          have h2 : b ∈ lookupSet (ensureKey st.forward f.rel) a := h
          rw [lookupSet_ensureKey] at h2
          exact Or.inl h2
      | ok imps =>
          rw [hex] at h
          have h2 : b ∈ lookupSet
              ((imps.foldl (process_import rv f.rel)
                ⟨ensureKey st.forward f.rel, st.reverse, st.errors⟩).forward) a := h
          rcases prov_foldl_imports rv f.rel imps _ a b h2 with h' | ⟨rfl, hie⟩
          · have h3 : b ∈ lookupSet (ensureKey st.forward f.rel) a := h'
            rw [lookupSet_ensureKey] at h3
            exact Or.inl h3
          · exact Or.inr ⟨rfl, imps, rfl, hie⟩

theorem edgeProv_mono (f : FileRecord) (files : List FileRecord) (rv : Resolver)
    (a b : String) (h : EdgeProv files rv a b) : EdgeProv (f :: files) rv a b := by
  obtain ⟨g, hg, hrest⟩ := h
  exact ⟨g, List.mem_cons_of_mem f hg, hrest⟩

theorem prov_foldl_files (rv : Resolver) :
    ∀ (files : List FileRecord) (st : BuildState) (a b : String),
      b ∈ lookupSet ((files.foldl (process_file rv) st).forward) a →
      b ∈ lookupSet st.forward a ∨ EdgeProv files rv a b
  | [], _, _, _, h => Or.inl h
  | f :: rest, st, a, b, h => by
      rcases prov_foldl_files rv rest (process_file rv st f) a b h
        with h' | hprov
      · rcases prov_process_file rv st f a b h' with h'' | ⟨hrel, hrest⟩
        · exact Or.inl h''
        · exact Or.inr ⟨f, List.mem_cons_self f rest, hrel, hrest⟩
      · exact Or.inr (edgeProv_mono f rest rv a b hprov)

theorem edge_prov_build (files : List FileRecord) (rv : Resolver) (a b : String)
    (h : b ∈ lookupSet (build_import_graph files rv).forward a) :
    EdgeProv files rv a b := by
  rcases prov_foldl_files rv files ⟨[], [], []⟩ a b h with h' | hprov
  · simp [lookupSet, dictFind] at h'
  · exact hprov

/-! ### Tarjan output invariant: only components of size > 1 are kept -/

theorem sccs_mono_neighbors (visit : String → TarjanState → TarjanState)
    (node : String)
    (hvisit : ∀ (node' : String) (st : TarjanState) (l : List String),
      l ∈ (visit node' st).sccs → l ∈ st.sccs ∨ 1 < l.length) :
    ∀ (nbs : List String) (st : TarjanState) (l : List String),
      l ∈ (tarjanNeighbors visit node nbs st).sccs → l ∈ st.sccs ∨ 1 < l.length
  | [], st, l, h => by
      simp only [tarjanNeighbors] at h
      exact Or.inl h
  | neighbor :: rest, st, l, h => by
      simp only [tarjanNeighbors] at h
      rcases sccs_mono_neighbors visit node hvisit rest _ l h with h' | h'
      · by_cases h1 : (assocFind st.index neighbor).isNone = true
        · rw [if_pos h1] at h'
          rcases hvisit neighbor st l h' with h'' | h''
          · exact Or.inl h''
          · exact Or.inr h''
        · rw [if_neg h1] at h'
          by_cases h2 : neighbor ∈ st.on_stack
          · rw [if_pos h2] at h'
            exact Or.inl h'
          · rw [if_neg h2] at h'
            exact Or.inl h'
      · exact Or.inr h'

theorem sccs_mono_visit :
    ∀ (fuel : Nat) (g : Dict) (node : String) (st : TarjanState) (l : List String),
      l ∈ (strongconnect g fuel node st).sccs → l ∈ st.sccs ∨ 1 < l.length := by
  intro fuel
  induction fuel with
  | zero =>
      intro g node st l h
      simp only [strongconnect] at h
      exact Or.inl h
  | succ fuel ih =>
      intro g node st l h
      simp only [strongconnect] at h
      split at h
      · dsimp only at h
        split at h
        · rcases List.mem_append.mp h with h' | h'
          · rcases sccs_mono_neighbors (strongconnect g fuel) node
                (fun n s m hm => ih g n s m hm) _ _ l h' with h'' | h''
            · exact Or.inl h''
            · exact Or.inr h''
          · rw [List.mem_singleton] at h'
            subst h'
            rename_i hguard
            exact Or.inr hguard
        · rcases sccs_mono_neighbors (strongconnect g fuel) node
              (fun n s m hm => ih g n s m hm) _ _ l h with h'' | h''
          · exact Or.inl h''
          · exact Or.inr h''
      · rcases sccs_mono_neighbors (strongconnect g fuel) node
            (fun n s m hm => ih g n s m hm) _ _ l h with h'' | h''
        · exact Or.inl h''
        · exact Or.inr h''

theorem tarjan_sccs_length (g : Dict) (l : List String) (hl : l ∈ tarjan_scc g) :
    1 < l.length := by
  have hstep : ∀ (st : TarjanState) (node : String),
      (∀ m ∈ st.sccs, 1 < m.length) →
      ∀ m ∈ ((if (assocFind st.index node).isNone then
          strongconnect g (tarjanFuel g) node st else st)).sccs, 1 < m.length := by
    intro st node hP m hm
    split at hm
    · rcases sccs_mono_visit (tarjanFuel g) g node st m hm with h | h
      · exact hP m h
      · exact h
    · exact hP m hm
  have hinit : ∀ m ∈ (⟨0, [], [], [], [], []⟩ : TarjanState).sccs, 1 < m.length := by
    intro m hm
    simp at hm
  exact foldl_preserve (fun st : TarjanState => ∀ m ∈ st.sccs, 1 < m.length)
    (fun st node =>
      if (assocFind st.index node).isNone then strongconnect g (tarjanFuel g) node st
      else st)
    hstep (dictKeys g) ⟨0, [], [], [], [], []⟩ hinit l hl

/-! ### Graph reachability and strongly connected components -/

/-- One edge of the graph dictionary: `b` is a member of the adjacency set of `a`. -/
abbrev Edge (g : Dict) (a b : String) : Prop := b ∈ lookupSet g a

/-- Reachability along zero or more edges. -/
def Reach (g : Dict) : String → String → Prop := Relation.ReflTransGen (Edge g)

/-- Mutual reachability: `a` and `b` lie on a common cycle (or are equal). -/
def Mutual (g : Dict) (a b : String) : Prop := Reach g a b ∧ Reach g b a

/-- A strongly connected component of the graph, as the mathematical
specification: a nonempty node list whose members are pairwise mutually
reachable and which contains every node mutually reachable with one of its
members. -/
def SccOf (g : Dict) (S : List String) : Prop :=
  S ≠ [] ∧ (∀ a ∈ S, ∀ b ∈ S, Reach g a b) ∧
    (∀ a ∈ S, ∀ x, Mutual g a x → x ∈ S)

theorem reach_refl (g : Dict) (a : String) : Reach g a a :=
  Relation.ReflTransGen.refl

theorem reach_trans {g : Dict} {a b c : String} (h1 : Reach g a b)
    (h2 : Reach g b c) : Reach g a c :=
  Relation.ReflTransGen.trans h1 h2

theorem reach_edge {g : Dict} {a b : String} (h : Edge g a b) : Reach g a b :=
  Relation.ReflTransGen.single h

theorem mutual_refl (g : Dict) (a : String) : Mutual g a a :=
  ⟨reach_refl g a, reach_refl g a⟩

theorem mutual_symm {g : Dict} {a b : String} (h : Mutual g a b) :
    Mutual g b a := ⟨h.2, h.1⟩

theorem mutual_trans {g : Dict} {a b c : String} (h1 : Mutual g a b)
    (h2 : Mutual g b c) : Mutual g a c :=
  ⟨reach_trans h1.1 h2.1, reach_trans h2.2 h1.2⟩

/-- A set of nodes closed under outgoing edges absorbs everything reachable
from its members. -/
theorem reach_mem_closed {g : Dict} {T : List String}
    (hT : ∀ a ∈ T, ∀ b ∈ lookupSet g a, b ∈ T) :
    ∀ {a x : String}, a ∈ T → Reach g a x → x ∈ T := by
  intro a x ha h
  induction h with
  | refl => exact ha
  | tail _ hstep ih => exact hT _ ih _ hstep

/-- A node with a nonempty adjacency set is a key of the dictionary. -/
theorem mem_keys_of_lookup {g : Dict} {a b : String}
    (h : b ∈ lookupSet g a) : a ∈ dictKeys g := by
  induction g with
  | nil => simp [lookupSet, dictFind] at h
  | cons p rest ih =>
      by_cases hk : p.1 = a
      · simp [dictKeys, hk]
      · simp only [lookupSet, dictFind] at h
        rw [if_neg hk] at h
        simp only [dictKeys, List.map_cons, List.mem_cons]
        exact Or.inr (ih h)

/-- Reaching a distinct node requires an outgoing edge, hence a key. -/
theorem mem_keys_of_reach_ne {g : Dict} {a b : String} (h : Reach g a b)
    (hne : a ≠ b) : a ∈ dictKeys g := by
  rcases Relation.ReflTransGen.cases_head h with h' | ⟨c, hc, _⟩
  · exact absurd h' hne
  · exact mem_keys_of_lookup hc

/-! ### Assoc-map lemmas -/

theorem assocFind_assocSet_self (m : List (String × Nat)) (k : String) (v : Nat) :
    assocFind (assocSet m k v) k = some v := by
  induction m with
  | nil => simp [assocSet, assocFind]
  | cons p rest ih =>
      by_cases hk : p.1 = k
      · simp [assocSet, assocFind, hk]
      · simp only [assocSet, assocFind]
        rw [if_neg hk, assocFind, if_neg hk]
        exact ih

theorem assocFind_assocSet_ne (m : List (String × Nat)) (k a : String) (v : Nat)
    (h : k ≠ a) : assocFind (assocSet m k v) a = assocFind m a := by
  induction m with
  | nil =>
      simp only [assocSet, assocFind]
      rw [if_neg h]
  | cons p rest ih =>
      by_cases hk : p.1 = k
      · show assocFind (if p.1 = k then (k, v) :: rest else
          (p.1, p.2) :: assocSet rest k v) a = assocFind ((p.1, p.2) :: rest) a
        rw [if_pos hk]
        show (if k = a then some v else assocFind rest a) =
          (if p.1 = a then some p.2 else assocFind rest a)
        rw [if_neg h, if_neg (hk ▸ h)]
      · show assocFind (if p.1 = k then (k, v) :: rest else
          (p.1, p.2) :: assocSet rest k v) a = assocFind ((p.1, p.2) :: rest) a
        rw [if_neg hk]
        show (if p.1 = a then some p.2 else assocFind (assocSet rest k v) a) =
          (if p.1 = a then some p.2 else assocFind rest a)
        rw [ih]

/-! ### Tarjan state predicates -/

/-- A node is visited once `index[node]` has been assigned. -/
def visitedT (st : TarjanState) (x : String) : Prop :=
  (assocFind st.index x).isSome = true

/-- The assigned index of a node (`0` as a dummy default). -/
def idxv (st : TarjanState) (x : String) : Nat :=
  (assocFind st.index x).getD 0

/-- The current lowlink of a node (`0` as a dummy default). -/
def lowv (st : TarjanState) (x : String) : Nat :=
  (assocFind st.lowlink x).getD 0

/-- A node is popped once visited but no longer on the stack. -/
def poppedT (st : TarjanState) (x : String) : Prop :=
  visitedT st x ∧ x ∉ st.stack

/-! ### popUntil lemmas -/

theorem popUntil_cons (node w : String) (rest : List String) :
    popUntil node (w :: rest) =
      if w = node then (rest, [w])
      else ((popUntil node rest).1, w :: (popUntil node rest).2) := by
  by_cases h : w = node
  · simp [popUntil, h]
  · simp [popUntil, h]

/-- Splitting a stack at the first occurrence of the root: the popped
segment is the prefix through the root, the rest survives. -/
theorem popUntil_split (node : String) :
    ∀ l : List String, node ∈ l →
      ∃ pre, (popUntil node l).2 = pre ++ [node] ∧ (∀ w ∈ pre, w ≠ node) ∧
        pre ++ node :: (popUntil node l).1 = l := by
  intro l
  induction l with
  | nil => intro h; simp at h
  | cons w rest ih =>
      intro h
      by_cases hw : w = node
      · refine ⟨[], ?_, ?_, ?_⟩
        · rw [popUntil_cons, if_pos hw]
          simp [hw]
        · intro x hx; simp at hx
        · rw [popUntil_cons, if_pos hw]
          simp [hw]
      · have hmem : node ∈ rest := by
          rcases List.mem_cons.mp h with h1 | h1
          · exact absurd h1.symm hw
          · exact h1
        rcases ih hmem with ⟨pre, h1, h2, h3⟩
        refine ⟨w :: pre, ?_, ?_, ?_⟩
        · rw [popUntil_cons, if_neg hw, h1]
          simp
        · intro x hx
          rcases List.mem_cons.mp hx with h4 | h4
          · exact h4 ▸ hw
          · exact h2 x h4
        · rw [popUntil_cons, if_neg hw]
          simp only [List.cons_append]
          rw [h3]

/-! ### Pairwise helpers -/

theorem pairwise_mem_rel {α : Type} {R : α → α → Prop} :
    ∀ {l : List α}, l.Pairwise R →
      ∀ {a b : α}, a ∈ l → b ∈ l → a ≠ b → R a b ∨ R b a := by
  intro l h
  induction h with
  | nil => intro a b ha; simp at ha
  | cons hx _ ih =>
      intro a b ha hb hne
      rcases List.mem_cons.mp ha with h1 | h1
      · rcases List.mem_cons.mp hb with h2 | h2
        · exact absurd (h1.trans h2.symm) hne
        · exact Or.inl (h1 ▸ hx b h2)
      · rcases List.mem_cons.mp hb with h2 | h2
        · exact Or.inr (h2 ▸ hx a h1)
        · exact ih h1 h2 hne

/-- On a stack with strictly decreasing indices, the index determines the
node. -/
theorem sorted_idx_inj {st : TarjanState}
    (hs : st.stack.Pairwise (fun a b => idxv st b < idxv st a))
    {a b : String} (ha : a ∈ st.stack) (hb : b ∈ st.stack)
    (h : idxv st a = idxv st b) : a = b := by
  by_contra hne
  rcases pairwise_mem_rel hs ha hb hne with h1 | h1 <;> omega

/-! ### Fuel accounting -/

/-- Every value occurring in some adjacency set of the dict. -/
def allVals (g : Dict) : List String :=
  g.foldl (fun acc p => acc ++ p.2) []

/-- Every node name occurring in the graph (keys and neighbors). -/
def relevantNodes (g : Dict) : List String :=
  (dictKeys g ++ allVals g).dedup

/-- The number of graph nodes not yet visited. -/
def unvisCount (g : Dict) (st : TarjanState) : Nat :=
  (relevantNodes g).countP (fun x => !(assocFind st.index x).isSome)

theorem foldl_append_acc (g : Dict) : ∀ acc : List String,
    g.foldl (fun a p => a ++ p.2) acc = acc ++ g.foldl (fun a p => a ++ p.2) [] := by
  induction g with
  | nil => intro acc; simp
  | cons p rest ih =>
      intro acc
      simp only [List.foldl_cons]
      rw [ih (acc ++ p.2)]
      simp only [List.nil_append]
      rw [ih p.2]
      simp

theorem allVals_cons (p : String × List String) (rest : Dict) :
    allVals (p :: rest) = p.2 ++ allVals rest := by
  show List.foldl (fun a q => a ++ q.2) ([] ++ p.2) rest = _
  rw [foldl_append_acc]
  simp [allVals]

theorem lookupSet_sub_allVals (g : Dict) (a z : String)
    (h : z ∈ lookupSet g a) : z ∈ allVals g := by
  induction g with
  | nil => simp [lookupSet, dictFind] at h
  | cons p rest ih =>
      rw [allVals_cons, List.mem_append]
      by_cases hk : p.1 = a
      · left
        simp only [lookupSet, dictFind] at h
        rw [if_pos hk] at h
        exact h
      · right
        apply ih
        simp only [lookupSet, dictFind] at h
        rw [if_neg hk] at h
        exact h

theorem lookupSet_sub_relevant (g : Dict) (a z : String)
    (h : z ∈ lookupSet g a) : z ∈ relevantNodes g := by
  rw [relevantNodes, List.mem_dedup, List.mem_append]
  exact Or.inr (lookupSet_sub_allVals g a z h)

theorem keys_sub_relevant (g : Dict) (a : String)
    (h : a ∈ dictKeys g) : a ∈ relevantNodes g := by
  rw [relevantNodes, List.mem_dedup, List.mem_append]
  exact Or.inl h

theorem edgeCount_eq (g : Dict) : ∀ n : Nat,
    g.foldl (fun n p => n + p.2.length) n = n + (allVals g).length := by
  induction g with
  | nil => intro n; simp [allVals]
  | cons p rest ih =>
      intro n
      simp only [List.foldl_cons]
      rw [ih, allVals_cons]
      simp
      omega

theorem unvisCount_lt_fuel (g : Dict) (st : TarjanState) :
    unvisCount g st < tarjanFuel g := by
  have h1 : unvisCount g st ≤ (relevantNodes g).length :=
    List.countP_le_length _
  have h2 : (relevantNodes g).length ≤ (dictKeys g ++ allVals g).length :=
    List.Sublist.length_le (List.dedup_sublist _)
  have h3 : (dictKeys g ++ allVals g).length = g.length + (allVals g).length := by
    simp [dictKeys]
  have h4 : tarjanFuel g = 1 + g.length + (allVals g).length := by
    rw [tarjanFuel, edgeCount_eq]
    omega
  omega

theorem countP_mono {α : Type} (p q : α → Bool) :
    ∀ l : List α, (∀ a ∈ l, p a = true → q a = true) →
      l.countP p ≤ l.countP q := by
  intro l
  induction l with
  | nil => intro _; simp
  | cons x xs ih =>
      intro h
      rw [List.countP_cons, List.countP_cons]
      have hx := h x (List.mem_cons_self x xs)
      have hxs := ih (fun a ha hp => h a (List.mem_cons_of_mem x ha) hp)
      by_cases hp : p x = true
      · rw [hp, if_pos rfl, hx hp, if_pos rfl]
        omega
      · have : ¬ p x = true := hp
        rw [if_neg this]
        by_cases hq : q x = true
        · rw [hq, if_pos rfl]; omega
        · rw [if_neg hq]; omega

theorem countP_strict {α : Type} (p q : α → Bool) :
    ∀ l : List α, (∀ a ∈ l, p a = true → q a = true) →
      ∀ a ∈ l, q a = true → p a = false →
      l.countP p < l.countP q := by
  intro l
  induction l with
  | nil => intro _ a ha; simp at ha
  | cons x xs ih =>
      intro h a ha hq hp
      rw [List.countP_cons, List.countP_cons]
      have hxs : xs.countP p ≤ xs.countP q :=
        countP_mono p q xs (fun b hb => h b (List.mem_cons_of_mem x hb))
      rcases List.mem_cons.mp ha with h1 | h1
      · subst h1
        rw [hq, if_pos rfl, hp]
        simp
        omega
      · have := ih (fun b hb => h b (List.mem_cons_of_mem x hb)) a h1 hq hp
        have hx := h x (List.mem_cons_self x xs)
        by_cases hpx : p x = true
        · rw [hpx, if_pos rfl, hx hpx, if_pos rfl]; omega
        · rw [if_neg hpx]
          by_cases hqx : q x = true
          · rw [hqx, if_pos rfl]; omega
          · rw [if_neg hqx]; omega

theorem unvis_bool_iff (st : TarjanState) (a : String) :
    ((!(assocFind st.index a).isSome) = true) ↔ ¬ visitedT st a := by
  rw [visitedT]
  cases (assocFind st.index a).isSome <;> simp

/-- Visiting a fresh relevant node strictly decreases the unvisited count. -/
theorem unvisCount_strict (g : Dict) (st st2 : TarjanState)
    (hmono : ∀ x, visitedT st x → visitedT st2 x)
    (v : String) (hv : v ∈ relevantNodes g) (h1 : ¬ visitedT st v)
    (h2 : visitedT st2 v) : unvisCount g st2 < unvisCount g st := by
  apply countP_strict _ _ _ ?_ v hv ?_ ?_
  · intro a _ hp
    rw [unvis_bool_iff] at hp ⊢
    intro hcon
    exact hp (hmono a hcon)
  · rw [unvis_bool_iff]
    exact h1
  · rw [visitedT] at h2
    rw [h2]
    rfl

theorem unvisCount_mono (g : Dict) (st st2 : TarjanState)
    (hmono : ∀ x, visitedT st x → visitedT st2 x) :
    unvisCount g st2 ≤ unvisCount g st := by
  apply countP_mono
  intro a _ hp
  rw [unvis_bool_iff] at hp ⊢
  intro hcon
  exact hp (hmono a hcon)

/-! ### The Tarjan well-formedness invariant -/

/-- Global well-formedness of a Tarjan state: the stack mirrors `on_stack`,
holds visited nodes in strictly decreasing index order below the counter,
lowlinks are defined, bounded by the index and achieved by a reachable stack
node, and the popped region is a union of complete strongly connected
components, each either recorded in `sccs` or a singleton. -/
structure TWF (g : Dict) (st : TarjanState) : Prop where
  ons : st.on_stack = st.stack
  nodup : st.stack.Nodup
  stackVis : ∀ x ∈ st.stack, visitedT st x
  sorted : st.stack.Pairwise (fun a b => idxv st b < idxv st a)
  counterBig : ∀ x, visitedT st x → idxv st x < st.counter
  lowDef : ∀ x, visitedT st x → (assocFind st.lowlink x).isSome = true
  lowLe : ∀ x, visitedT st x → lowv st x ≤ idxv st x
  achieved : ∀ x ∈ st.stack, ∃ y ∈ st.stack, Reach g x y ∧ idxv st y = lowv st x
  popClosed : ∀ x, poppedT st x → ∀ z, Mutual g x z → poppedT st z
  popRecorded : ∀ x, poppedT st x →
    (∃ l ∈ st.sccs, ∀ y, y ∈ l ↔ Mutual g x y) ∨ (∀ y, Mutual g x y → y = x)

/-- Every visited node outside the active chain `A` has had its whole
neighbor list visited. -/
def DoneExcept (g : Dict) (st : TarjanState) (A : List String) : Prop :=
  ∀ x, visitedT st x → ¬ x ∈ A → ∀ z ∈ lookupSet g x, visitedT st z

/-- Every visited node outside the active chain `A` has folded each
neighbor still on the stack into its lowlink. -/
def EdgeLow (g : Dict) (st : TarjanState) (A : List String) : Prop :=
  ∀ x, visitedT st x → ¬ x ∈ A → ∀ z ∈ lookupSet g x, z ∈ st.stack →
    lowv st x ≤ idxv st z

/-- Precondition of `strongconnect g fuel v st` relative to the active
chain `A` of callers. -/
structure SCPre (g : Dict) (A : List String) (v : String)
    (st : TarjanState) : Prop where
  wf : TWF g st
  done : DoneExcept g st A
  elow : EdgeLow g st A
  vUnvis : ¬ visitedT st v
  vRel : v ∈ relevantNodes g
  aStack : ∀ a ∈ A, a ∈ st.stack
  stackReach : ∀ x ∈ st.stack, Reach g x v

/-- Postcondition of `strongconnect g fuel v st`. -/
structure SCPost (g : Dict) (A : List String) (v : String)
    (st st2 : TarjanState) : Prop where
  wf : TWF g st2
  done : DoneExcept g st2 A
  elow : EdgeLow g st2 A
  idxFrame : ∀ x, visitedT st x → assocFind st2.index x = assocFind st.index x
  lowFrame : ∀ x, visitedT st x → assocFind st2.lowlink x = assocFind st.lowlink x
  visMono : ∀ x, visitedT st x → visitedT st2 x
  popMono : ∀ x, poppedT st x → poppedT st2 x
  sccsMono : ∃ add, st2.sccs = st.sccs ++ add
  counterMono : st.counter < st2.counter
  vIdx : assocFind st2.index v = some st.counter
  newReach : ∀ x, visitedT st2 x → ¬ visitedT st x → Reach g v x
  newIdxBig : ∀ x, visitedT st2 x → ¬ visitedT st x → st.counter ≤ idxv st2 x
  stackFrame : ∃ new, st2.stack = new ++ st.stack ∧ ∀ n ∈ new, ¬ visitedT st n
  vCases : v ∈ st2.stack ∨ st2.stack = st.stack
  vStrict : v ∈ st2.stack → lowv st2 v < idxv st2 v
  vLow : v ∈ st2.stack ∨ lowv st2 v = st.counter
  newStrict : ∀ x ∈ st2.stack, ¬ visitedT st x → x ≠ v → lowv st2 x < idxv st2 x
  subLow : ∀ x ∈ st2.stack, ¬ visitedT st x → lowv st2 v ≤ lowv st2 x
  unvisLt : unvisCount g st2 < unvisCount g st

/-- Invariant carried through the neighbor loop of `strongconnect v`,
relating the entry state `st0` (before `v` was pushed) to the current
state. -/
structure TNInv (g : Dict) (A : List String) (v : String)
    (st0 st : TarjanState) : Prop where
  wf : TWF g st
  done : DoneExcept g st (v :: A)
  elow : EdgeLow g st (v :: A)
  idxFrame : ∀ x, visitedT st0 x → assocFind st.index x = assocFind st0.index x
  lowFrame : ∀ x, visitedT st0 x → assocFind st.lowlink x = assocFind st0.lowlink x
  visMono : ∀ x, visitedT st0 x → visitedT st x
  popMono : ∀ x, poppedT st0 x → poppedT st x
  sccsMono : ∃ add, st.sccs = st0.sccs ++ add
  counterMono : st0.counter < st.counter
  vIdx : assocFind st.index v = some st0.counter
  vOn : v ∈ st.stack
  newReach : ∀ x, visitedT st x → ¬ visitedT st0 x → Reach g v x
  newIdxBig : ∀ x, visitedT st x → ¬ visitedT st0 x → st0.counter ≤ idxv st x
  stackFrame : ∃ new, st.stack = new ++ st0.stack ∧ ∀ n ∈ new, ¬ visitedT st0 n
  newStrict : ∀ x ∈ st.stack, ¬ visitedT st0 x → x ≠ v → lowv st x < idxv st x
  subLow : ∀ x ∈ st.stack, ¬ visitedT st0 x → lowv st v ≤ lowv st x
  unvisLt : unvisCount g st < unvisCount g st0

/-- The facts recorded about a processed neighbor `z` of `v`: it is
visited, and it is either popped or bounds the lowlink of `v` by its index. -/
def NbFact (_g : Dict) (v : String) (st : TarjanState) (z : String) : Prop :=
  visitedT st z ∧ (lowv st v ≤ idxv st z ∨ poppedT st z)

/-- Monotone state evolution along the neighbor loop, as needed to carry
processed-neighbor facts forward. -/
structure TStep (v : String) (stA stB : TarjanState) : Prop where
  visMono : ∀ x, visitedT stA x → visitedT stB x
  idxFrame : ∀ x, visitedT stA x → assocFind stB.index x = assocFind stA.index x
  popMono : ∀ x, poppedT stA x → poppedT stB x
  vLowLe : lowv stB v ≤ lowv stA v

theorem tstep_refl (v : String) (st : TarjanState) : TStep v st st :=
  ⟨fun _ h => h, fun _ _ => rfl, fun _ h => h, le_refl _⟩

theorem tstep_trans {v : String} {s1 s2 s3 : TarjanState}
    (h1 : TStep v s1 s2) (h2 : TStep v s2 s3) : TStep v s1 s3 :=
  ⟨fun x h => h2.visMono x (h1.visMono x h),
   fun x h => (h2.idxFrame x (h1.visMono x h)).trans (h1.idxFrame x h),
   fun x h => h2.popMono x (h1.popMono x h),
   le_trans h2.vLowLe h1.vLowLe⟩

theorem nbFact_step {g : Dict} {v : String} {stA stB : TarjanState} {z : String}
    (hf : NbFact g v stA z) (hs : TStep v stA stB) : NbFact g v stB z := by
  obtain ⟨hvis, hrest⟩ := hf
  refine ⟨hs.visMono z hvis, ?_⟩
  rcases hrest with h | h
  · left
    have hz : idxv stB z = idxv stA z := by
      rw [idxv, idxv, hs.idxFrame z hvis]
    rw [hz]
    exact le_trans hs.vLowLe h
  · exact Or.inr (hs.popMono z h)

/-! ### Chain descent -/

/-- Chain descent: on a stack where every fresh non-root node has a strictly
smaller lowlink achieved by a reachable stack node and every old node
reaches the root `v`, every fresh node also reaches `v`. -/
theorem stack_descend (g : Dict) (st : TarjanState) (v : String) (cnt : Nat)
    (hach : ∀ x ∈ st.stack, ∃ y ∈ st.stack, Reach g x y ∧ idxv st y = lowv st x)
    (_hvc : idxv st v = cnt)
    (hold : ∀ x ∈ st.stack, idxv st x < cnt → Reach g x v)
    (hstrict : ∀ x ∈ st.stack, cnt ≤ idxv st x → x ≠ v → lowv st x < idxv st x) :
    ∀ x ∈ st.stack, cnt ≤ idxv st x → Reach g x v := by
  have main : ∀ n : Nat, ∀ x ∈ st.stack, idxv st x = n → cnt ≤ n → Reach g x v := by
    intro n
    induction n using Nat.strong_induction_on with
    | _ n ih =>
        intro x hx hxn hcn
        by_cases hxv : x = v
        · exact hxv ▸ reach_refl g v
        · have hlow : lowv st x < idxv st x := hstrict x hx (hxn ▸ hcn) hxv
          rcases hach x hx with ⟨y, hy, hreach, hyidx⟩
          by_cases hyc : idxv st y < cnt
          · exact reach_trans hreach (hold y hy hyc)
          · exact reach_trans hreach
              (ih (idxv st y) (by omega) y hy rfl (by omega))
  intro x hx hcx
  exact main (idxv st x) x hx rfl hcx

/-! ### State-update helpers -/

theorem lowv_update_self (st : TarjanState) (v : String) (low : Nat) :
    lowv { st with lowlink := assocSet st.lowlink v low } v = low := by
  show (assocFind (assocSet st.lowlink v low) v).getD 0 = low
  rw [assocFind_assocSet_self]
  rfl

theorem lowv_update_ne (st : TarjanState) (v x : String) (low : Nat)
    (h : v ≠ x) :
    lowv { st with lowlink := assocSet st.lowlink v low } x = lowv st x := by
  show (assocFind (assocSet st.lowlink v low) x).getD 0 = _
  rw [assocFind_assocSet_ne _ _ _ _ h]
  rfl

theorem visitedT_iff_not_isNone (st : TarjanState) (x : String) :
    visitedT st x ↔ ¬ (assocFind st.index x).isNone = true := by
  rw [visitedT]
  cases assocFind st.index x <;> simp

/-! ### Unfolding the algorithm into push, neighbor loop and pop -/

/-- The entry block of `strongconnect`: assign index and lowlink, advance
the counter, push the node. -/
def pushState (node : String) (st : TarjanState) : TarjanState :=
  { st with
    index := assocSet st.index node st.counter
    lowlink := assocSet st.lowlink node st.counter
    counter := st.counter + 1
    stack := node :: st.stack
    on_stack := node :: st.on_stack }

/-- The root block of `strongconnect`: pop the component and record it if
it has more than one member. -/
def popState (node : String) (st2 : TarjanState) : TarjanState :=
  let pr := popUntil node st2.stack
  { st2 with
    stack := pr.1
    on_stack := st2.on_stack.filter (fun w => ¬ w ∈ pr.2)
    sccs := if pr.2.length > 1 then st2.sccs ++ [pr.2] else st2.sccs }

theorem strongconnect_succ (g : Dict) (fuel : Nat) (node : String)
    (st : TarjanState) :
    strongconnect g (fuel + 1) node st =
      (let st2 := tarjanNeighbors (strongconnect g fuel) node
        (lookupSet g node) (pushState node st)
       if assocFind st2.lowlink node = assocFind st2.index node then
         popState node st2 else st2) := rfl

/-! ### Push-state facts -/

theorem visitedT_push (st : TarjanState) (v x : String) :
    visitedT (pushState v st) x ↔ x = v ∨ visitedT st x := by
  show (assocFind (assocSet st.index v st.counter) x).isSome = true ↔ _
  by_cases h : x = v
  · subst h
    rw [assocFind_assocSet_self]
    simp [visitedT]
  · rw [assocFind_assocSet_ne _ _ _ _ (fun hh => h hh.symm)]
    simp [visitedT, h]

theorem idxv_push_self (st : TarjanState) (v : String) :
    idxv (pushState v st) v = st.counter := by
  show (assocFind (assocSet st.index v st.counter) v).getD 0 = _
  rw [assocFind_assocSet_self]
  rfl

theorem idxv_push_ne (st : TarjanState) (v x : String) (h : x ≠ v) :
    idxv (pushState v st) x = idxv st x := by
  show (assocFind (assocSet st.index v st.counter) x).getD 0 = _
  rw [assocFind_assocSet_ne _ _ _ _ (fun hh => h hh.symm)]
  rfl

theorem lowv_push_self (st : TarjanState) (v : String) :
    lowv (pushState v st) v = st.counter := by
  show (assocFind (assocSet st.lowlink v st.counter) v).getD 0 = _
  rw [assocFind_assocSet_self]
  rfl

theorem lowv_push_ne (st : TarjanState) (v x : String) (h : x ≠ v) :
    lowv (pushState v st) x = lowv st x := by
  show (assocFind (assocSet st.lowlink v st.counter) x).getD 0 = _
  rw [assocFind_assocSet_ne _ _ _ _ (fun hh => h hh.symm)]
  rfl

theorem poppedT_push (st : TarjanState) (v x : String)
    (hv : ¬ visitedT st v) : poppedT (pushState v st) x ↔ poppedT st x := by
  constructor
  · rintro ⟨h1, h2⟩
    have hxv : x ≠ v := by
      intro hh
      exact h2 (hh ▸ List.mem_cons_self v st.stack)
    rcases (visitedT_push st v x).mp h1 with h3 | h3
    · exact absurd h3 hxv
    · exact ⟨h3, fun hh => h2 (List.mem_cons_of_mem v hh)⟩
  · rintro ⟨h1, h2⟩
    have hxv : x ≠ v := fun hh => hv (hh ▸ h1)
    refine ⟨(visitedT_push st v x).mpr (Or.inr h1), ?_⟩
    intro hh
    rcases List.mem_cons.mp hh with h3 | h3
    · exact hxv h3
    · exact h2 h3

/-- Pushing an unvisited node establishes the loop invariant. -/
theorem push_inv (g : Dict) (A : List String) (v : String) (st : TarjanState)
    (hpre : SCPre g A v st) : TNInv g A v st (pushState v st) := by
  have hneq : ∀ x, visitedT st x → x ≠ v := by
    intro x hx hh
    exact hpre.vUnvis (hh ▸ hx)
  have hvns : v ∉ st.stack := fun h => hpre.vUnvis (hpre.wf.stackVis v h)
  have hvis1 : visitedT (pushState v st) v :=
    (visitedT_push st v v).mpr (Or.inl rfl)
  have hidxold : ∀ x, visitedT st x →
      assocFind (pushState v st).index x = assocFind st.index x := by
    intro x hx
    show assocFind (assocSet st.index v st.counter) x = _
    exact assocFind_assocSet_ne _ _ _ _ (fun hh => hneq x hx hh.symm)
  have hlowold : ∀ x, visitedT st x →
      assocFind (pushState v st).lowlink x = assocFind st.lowlink x := by
    intro x hx
    show assocFind (assocSet st.lowlink v st.counter) x = _
    exact assocFind_assocSet_ne _ _ _ _ (fun hh => hneq x hx hh.symm)
  have hvmono : ∀ x, visitedT st x → visitedT (pushState v st) x :=
    fun x hx => (visitedT_push st v x).mpr (Or.inr hx)
  have hidxeq : ∀ x, visitedT st x → idxv (pushState v st) x = idxv st x :=
    fun x hx => idxv_push_ne st v x (hneq x hx)
  have hloweq : ∀ x, visitedT st x → lowv (pushState v st) x = lowv st x :=
    fun x hx => lowv_push_ne st v x (hneq x hx)
  refine ⟨⟨?_, ?_, ?_, ?_, ?_, ?_, ?_, ?_, ?_, ?_⟩,
    ?_, ?_, hidxold, hlowold, hvmono, ?_, ?_, ?_, ?_, ?_, ?_, ?_, ?_, ?_, ?_, ?_⟩
  · show v :: st.on_stack = v :: st.stack
    rw [hpre.wf.ons]
  · exact List.nodup_cons.mpr ⟨hvns, hpre.wf.nodup⟩
  · intro x hx
    rcases List.mem_cons.mp hx with h | h
    · exact h ▸ hvis1
    · exact hvmono x (hpre.wf.stackVis x h)
  · show List.Pairwise
      (fun a b => idxv (pushState v st) b < idxv (pushState v st) a) (v :: st.stack)
    rw [List.pairwise_cons]
    constructor
    · intro b hb
      have hbv := hpre.wf.stackVis b hb
      rw [hidxeq b hbv, idxv_push_self]
      exact hpre.wf.counterBig b hbv
    · refine List.Pairwise.imp_of_mem ?_ hpre.wf.sorted
      intro a b ha hb hab
      rw [hidxeq a (hpre.wf.stackVis a ha), hidxeq b (hpre.wf.stackVis b hb)]
      exact hab
  · intro x hx
    show idxv (pushState v st) x < st.counter + 1
    rcases (visitedT_push st v x).mp hx with h | h
    · subst h
      rw [idxv_push_self]
      omega
    · rw [hidxeq x h]
      have := hpre.wf.counterBig x h
      omega
  · intro x hx
    rcases (visitedT_push st v x).mp hx with h | h
    · subst h
      show (assocFind (assocSet st.lowlink x st.counter) x).isSome = true
      rw [assocFind_assocSet_self]
      rfl
    · rw [hlowold x h]
      exact hpre.wf.lowDef x h
  · intro x hx
    rcases (visitedT_push st v x).mp hx with h | h
    · subst h
      rw [lowv_push_self, idxv_push_self]
    · rw [hloweq x h, hidxeq x h]
      exact hpre.wf.lowLe x h
  · intro x hx
    rcases List.mem_cons.mp hx with h | h
    · subst h
      exact ⟨x, List.mem_cons_self x _, reach_refl g x,
        by rw [lowv_push_self, idxv_push_self]⟩
    · rcases hpre.wf.achieved x h with ⟨y, hy, hr, hyidx⟩
      have hyv := hpre.wf.stackVis y hy
      exact ⟨y, List.mem_cons_of_mem v hy, hr,
        by rw [hidxeq y hyv, hloweq x (hpre.wf.stackVis x h), hyidx]⟩
  · intro x hx z hz
    have hx0 := (poppedT_push st v x hpre.vUnvis).mp hx
    exact (poppedT_push st v z hpre.vUnvis).mpr
      (hpre.wf.popClosed x hx0 z hz)
  · intro x hx
    have hx0 := (poppedT_push st v x hpre.vUnvis).mp hx
    exact hpre.wf.popRecorded x hx0
  · intro x hx hxa z hz
    have hxv : x ≠ v := fun hh => hxa (hh ▸ List.mem_cons_self v A)
    rcases (visitedT_push st v x).mp hx with h | h
    · exact absurd h hxv
    · exact hvmono z
        (hpre.done x h (fun hh => hxa (List.mem_cons_of_mem v hh)) z hz)
  · intro x hx hxa z hz hzs
    have hxv : x ≠ v := fun hh => hxa (hh ▸ List.mem_cons_self v A)
    rcases (visitedT_push st v x).mp hx with h | h
    · exact absurd h hxv
    · rcases List.mem_cons.mp hzs with h2 | h2
      · exfalso
        exact hpre.vUnvis (h2 ▸
          hpre.done x h (fun hh => hxa (List.mem_cons_of_mem v hh)) z hz)
      · rw [hloweq x h, hidxeq z (hpre.wf.stackVis z h2)]
        exact hpre.elow x h (fun hh => hxa (List.mem_cons_of_mem v hh)) z hz h2
  · intro x hx
    exact (poppedT_push st v x hpre.vUnvis).mpr hx
  · exact ⟨[], by simp [pushState]⟩
  · show st.counter < st.counter + 1
    omega
  · show assocFind (assocSet st.index v st.counter) v = some st.counter
    exact assocFind_assocSet_self _ _ _
  · exact List.mem_cons_self v _
  · intro x hx1 hx0
    rcases (visitedT_push st v x).mp hx1 with h | h
    · exact h ▸ reach_refl g v
    · exact absurd h hx0
  · intro x hx1 hx0
    rcases (visitedT_push st v x).mp hx1 with h | h
    · subst h
      rw [idxv_push_self]
    · exact absurd h hx0
  · refine ⟨[v], rfl, ?_⟩
    intro n hn
    rcases List.mem_cons.mp hn with h | h
    · exact h ▸ hpre.vUnvis
    · simp at h
  · intro x hx hx0 hxv
    rcases List.mem_cons.mp hx with h | h
    · exact absurd h hxv
    · exact absurd (hpre.wf.stackVis x h) hx0
  · intro x hx hx0
    rcases List.mem_cons.mp hx with h | h
    · rw [h]
    · exact absurd (hpre.wf.stackVis x h) hx0
  · exact unvisCount_strict g st _ hvmono v hpre.vRel hpre.vUnvis hvis1

/-! ### Congruence helpers -/

theorem lowv_congr {stB stA : TarjanState} {x : String}
    (h : assocFind stB.lowlink x = assocFind stA.lowlink x) :
    lowv stB x = lowv stA x := by
  show (assocFind stB.lowlink x).getD 0 = (assocFind stA.lowlink x).getD 0
  rw [h]

theorem idxv_congr {stB stA : TarjanState} {x : String}
    (h : assocFind stB.index x = assocFind stA.index x) :
    idxv stB x = idxv stA x := by
  show (assocFind stB.index x).getD 0 = (assocFind stA.index x).getD 0
  rw [h]

theorem visitedT_of_some {st : TarjanState} {x : String} {n : Nat}
    (h : assocFind st.index x = some n) : visitedT st x := by
  rw [visitedT, h]
  rfl

theorem idxv_of_some {st : TarjanState} {x : String} {n : Nat}
    (h : assocFind st.index x = some n) : idxv st x = n := by
  rw [idxv, h]
  rfl

/-- Writing a new lowlink value for one node. -/
def lowMinUpd (st : TarjanState) (v : String) (n : Nat) : TarjanState :=
  { st with lowlink := assocSet st.lowlink v n }

theorem lowv_lowMinUpd_self (st : TarjanState) (v : String) (n : Nat) :
    lowv (lowMinUpd st v n) v = n := by
  show (assocFind (assocSet st.lowlink v n) v).getD 0 = n
  rw [assocFind_assocSet_self]
  rfl

theorem lowv_lowMinUpd_ne (st : TarjanState) (v x : String) (n : Nat)
    (h : v ≠ x) : lowv (lowMinUpd st v n) x = lowv st x := by
  show (assocFind (assocSet st.lowlink v n) x).getD 0 = _
  rw [assocFind_assocSet_ne _ _ _ _ h]
  rfl

/-! ### One neighbor-loop step -/

/-- The body of one iteration of the neighbor loop. -/
def tnStep (visit : String → TarjanState → TarjanState) (node neighbor : String)
    (st : TarjanState) : TarjanState :=
  if (assocFind st.index neighbor).isNone then
    let stv := visit neighbor st
    let low := min ((assocFind stv.lowlink node).getD 0)
      ((assocFind stv.lowlink neighbor).getD 0)
    { stv with lowlink := assocSet stv.lowlink node low }
  else if neighbor ∈ st.on_stack then
    let low := min ((assocFind st.lowlink node).getD 0)
      ((assocFind st.index neighbor).getD 0)
    { st with lowlink := assocSet st.lowlink node low }
  else st

theorem tarjanNeighbors_cons (visit : String → TarjanState → TarjanState)
    (node nb : String) (rest : List String) (st : TarjanState) :
    tarjanNeighbors visit node (nb :: rest) st =
      tarjanNeighbors visit node rest (tnStep visit node nb st) := rfl

theorem tnStep_unvis (visit : String → TarjanState → TarjanState)
    (node neighbor : String) (st : TarjanState)
    (h : (assocFind st.index neighbor).isNone = true) :
    tnStep visit node neighbor st =
      lowMinUpd (visit neighbor st) node
        (min (lowv (visit neighbor st) node)
          (lowv (visit neighbor st) neighbor)) := by
  unfold tnStep
  rw [if_pos h]
  rfl

theorem tnStep_back (visit : String → TarjanState → TarjanState)
    (node neighbor : String) (st : TarjanState)
    (h1 : ¬ (assocFind st.index neighbor).isNone = true)
    (h2 : neighbor ∈ st.on_stack) :
    tnStep visit node neighbor st =
      lowMinUpd st node (min (lowv st node) (idxv st neighbor)) := by
  unfold tnStep
  rw [if_neg h1, if_pos h2]
  rfl

theorem tnStep_skip (visit : String → TarjanState → TarjanState)
    (node neighbor : String) (st : TarjanState)
    (h1 : ¬ (assocFind st.index neighbor).isNone = true)
    (h2 : ¬ neighbor ∈ st.on_stack) :
    tnStep visit node neighbor st = st := by
  unfold tnStep
  rw [if_neg h1, if_neg h2]

/-- Lowering the lowlink of an on-stack node, with the new value achieved by
a reachable stack node, preserves well-formedness. -/
theorem twf_lowUpdate (g : Dict) (st : TarjanState) (v : String) (low : Nat)
    (hwf : TWF g st) (hv : v ∈ st.stack) (hle : low ≤ lowv st v)
    (hach : ∃ y ∈ st.stack, Reach g v y ∧ idxv st y = low) :
    TWF g (lowMinUpd st v low) := by
  refine ⟨hwf.ons, hwf.nodup, hwf.stackVis, hwf.sorted, hwf.counterBig,
    ?_, ?_, ?_, hwf.popClosed, hwf.popRecorded⟩
  · intro x hx
    by_cases hxv : x = v
    · subst hxv
      show (assocFind (assocSet st.lowlink x low) x).isSome = true
      rw [assocFind_assocSet_self]
      rfl
    · show (assocFind (assocSet st.lowlink v low) x).isSome = true
      rw [assocFind_assocSet_ne _ _ _ _ (fun hh => hxv hh.symm)]
      exact hwf.lowDef x hx
  · intro x hx
    by_cases hxv : x = v
    · subst hxv
      rw [lowv_lowMinUpd_self]
      exact le_trans hle (hwf.lowLe x hx)
    · rw [lowv_lowMinUpd_ne st v x low (fun hh => hxv hh.symm)]
      exact hwf.lowLe x hx
  · intro x hx
    by_cases hxv : x = v
    · subst hxv
      rcases hach with ⟨y, hy, hr, hyidx⟩
      rw [lowv_lowMinUpd_self]
      exact ⟨y, hy, hr, hyidx⟩
    · rcases hwf.achieved x hx with ⟨y, hy, hr, hyidx⟩
      rw [lowv_lowMinUpd_ne st v x low (fun hh => hxv hh.symm)]
      exact ⟨y, hy, hr, hyidx⟩

/-- Processing an already-visited, already-popped neighbor records the
popped fact. -/
theorem tn_step_popped (g : Dict) (v : String) (st : TarjanState) (nb : String)
    (hvisnb : visitedT st nb) (hoffnb : nb ∉ st.stack) : NbFact g v st nb :=
  ⟨hvisnb, Or.inr ⟨hvisnb, hoffnb⟩⟩

/-- Processing a back edge to an on-stack neighbor. -/
theorem tn_step_back (g : Dict) (A : List String) (v : String)
    (st0 st : TarjanState) (hpre : SCPre g A v st0)
    (hinv : TNInv g A v st0 st) (nb : String) (hnb : nb ∈ lookupSet g v)
    (honb : nb ∈ st.stack) :
    TNInv g A v st0 (lowMinUpd st v (min (lowv st v) (idxv st nb))) ∧
    NbFact g v (lowMinUpd st v (min (lowv st v) (idxv st nb))) nb ∧
    TStep v st (lowMinUpd st v (min (lowv st v) (idxv st nb))) := by
  have hvisnb : visitedT st nb := hinv.wf.stackVis nb honb
  have hwfB : TWF g (lowMinUpd st v (min (lowv st v) (idxv st nb))) := by
    refine twf_lowUpdate g st v _ hinv.wf hinv.vOn (min_le_left _ _) ?_
    rcases le_total (lowv st v) (idxv st nb) with h | h
    · rcases hinv.wf.achieved v hinv.vOn with ⟨y, hy, hr, hyidx⟩
      exact ⟨y, hy, hr, by rw [min_eq_left h]; exact hyidx⟩
    · exact ⟨nb, honb, reach_edge hnb, (min_eq_right h).symm⟩
  refine ⟨⟨hwfB, hinv.done, ?_, hinv.idxFrame, ?_, hinv.visMono, hinv.popMono,
      hinv.sccsMono, hinv.counterMono, hinv.vIdx, hinv.vOn, hinv.newReach,
      hinv.newIdxBig, hinv.stackFrame, ?_, ?_, hinv.unvisLt⟩, ?_, ?_⟩
  · intro x hx hxa z hz hzs
    have hxv : x ≠ v := fun hh => hxa (hh ▸ List.mem_cons_self v A)
    rw [lowv_lowMinUpd_ne st v x _ (fun hh => hxv hh.symm)]
    exact hinv.elow x hx hxa z hz hzs
  · intro x hx0
    have hxv : x ≠ v := fun hh => hpre.vUnvis (hh ▸ hx0)
    show assocFind (assocSet st.lowlink v _) x = _
    rw [assocFind_assocSet_ne _ _ _ _ (fun hh => hxv hh.symm)]
    exact hinv.lowFrame x hx0
  · intro x hx hx0 hxv
    rw [lowv_lowMinUpd_ne st v x _ (fun hh => hxv hh.symm)]
    exact hinv.newStrict x hx hx0 hxv
  · intro x hx hx0
    by_cases hxv : x = v
    · subst hxv
      exact le_refl _
    · rw [lowv_lowMinUpd_ne st v x _ (fun hh => hxv hh.symm),
        lowv_lowMinUpd_self]
      exact le_trans (min_le_left _ _) (hinv.subLow x hx hx0)
  · refine ⟨hvisnb, Or.inl ?_⟩
    rw [lowv_lowMinUpd_self]
    have h5 : idxv (lowMinUpd st v (min (lowv st v) (idxv st nb))) nb =
        idxv st nb := rfl
    rw [h5]
    exact min_le_right _ _
  · refine ⟨fun x h => h, fun x _ => rfl, fun x h => h, ?_⟩
    rw [lowv_lowMinUpd_self]
    exact min_le_left _ _

/-- Processing an unvisited neighbor through the recursive call. -/
theorem tn_step_call (g : Dict) (A : List String) (v : String)
    (st0 st stv : TarjanState) (hpre : SCPre g A v st0)
    (hinv : TNInv g A v st0 st) (nb : String) (hnb : nb ∈ lookupSet g v)
    (P : SCPost g (v :: A) nb st stv) :
    TNInv g A v st0 (lowMinUpd stv v (min (lowv stv v) (lowv stv nb))) ∧
    NbFact g v (lowMinUpd stv v (min (lowv stv v) (lowv stv nb))) nb ∧
    TStep v st (lowMinUpd stv v (min (lowv stv v) (lowv stv nb))) := by
  have hvv_st : visitedT st v := visitedT_of_some hinv.vIdx
  have hvv : visitedT stv v := P.visMono v hvv_st
  have hlowveq : lowv stv v = lowv st v := lowv_congr (P.lowFrame v hvv_st)
  have hidxveq : idxv stv v = idxv st v := idxv_congr (P.idxFrame v hvv_st)
  have hvon : v ∈ stv.stack := by
    rcases P.stackFrame with ⟨new2, heq2, _⟩
    rw [heq2]
    exact List.mem_append_right _ hinv.vOn
  have hvisnb : visitedT stv nb := visitedT_of_some P.vIdx
  have hmem_st : ∀ x, x ∈ stv.stack → visitedT st x → x ∈ st.stack := by
    intro x hx hvx
    rcases P.stackFrame with ⟨new2, heq2, hfresh2⟩
    rw [heq2] at hx
    rcases List.mem_append.mp hx with h | h
    · exact absurd hvx (hfresh2 x h)
    · exact h
  have hlowv_lt : lowv st v < st.counter := by
    have h1 : lowv st v ≤ idxv st v := hinv.wf.lowLe v hvv_st
    have h2 : idxv st v = st0.counter := idxv_of_some hinv.vIdx
    have h3 := hinv.counterMono
    omega
  have hwfB : TWF g (lowMinUpd stv v (min (lowv stv v) (lowv stv nb))) := by
    refine twf_lowUpdate g stv v _ P.wf hvon (min_le_left _ _) ?_
    by_cases hnbstk : nb ∈ stv.stack
    · rcases le_total (lowv stv v) (lowv stv nb) with h | h
      · rcases P.wf.achieved v hvon with ⟨y, hy, hr, hyidx⟩
        exact ⟨y, hy, hr, by rw [min_eq_left h]; exact hyidx⟩
      · rcases P.wf.achieved nb hnbstk with ⟨y, hy, hr, hyidx⟩
        exact ⟨y, hy, reach_trans (reach_edge hnb) hr,
          by rw [min_eq_right h]; exact hyidx⟩
    · rcases P.vLow with h | h
      · exact absurd h hnbstk
      · have hmin : min (lowv stv v) (lowv stv nb) = lowv stv v := by
          rw [hlowveq, h]
          exact min_eq_left (le_of_lt hlowv_lt)
        rcases P.wf.achieved v hvon with ⟨y, hy, hr, hyidx⟩
        exact ⟨y, hy, hr, by rw [hmin]; exact hyidx⟩
  refine ⟨⟨hwfB, P.done, ?_, ?_, ?_, ?_, ?_, ?_, ?_, ?_, hvon, ?_, ?_, ?_,
      ?_, ?_, ?_⟩, ?_, ?_⟩
  · intro x hx hxa z hz hzs
    have hxv : x ≠ v := fun hh => hxa (hh ▸ List.mem_cons_self v A)
    rw [lowv_lowMinUpd_ne stv v x _ (fun hh => hxv hh.symm)]
    exact P.elow x hx hxa z hz hzs
  · intro x hx0
    show assocFind stv.index x = _
    rw [P.idxFrame x (hinv.visMono x hx0)]
    exact hinv.idxFrame x hx0
  · intro x hx0
    have hxv : x ≠ v := fun hh => hpre.vUnvis (hh ▸ hx0)
    show assocFind (assocSet stv.lowlink v _) x = _
    rw [assocFind_assocSet_ne _ _ _ _ (fun hh => hxv hh.symm)]
    rw [P.lowFrame x (hinv.visMono x hx0)]
    exact hinv.lowFrame x hx0
  · intro x hx0
    exact P.visMono x (hinv.visMono x hx0)
  · intro x hx0
    exact P.popMono x (hinv.popMono x hx0)
  · rcases hinv.sccsMono with ⟨a1, h1⟩
    rcases P.sccsMono with ⟨a2, h2⟩
    exact ⟨a1 ++ a2, by show stv.sccs = _; rw [h2, h1, List.append_assoc]⟩
  · exact lt_trans hinv.counterMono P.counterMono
  · show assocFind stv.index v = _
    rw [P.idxFrame v hvv_st]
    exact hinv.vIdx
  · intro x hx1 hx0
    by_cases hxst : visitedT st x
    · exact hinv.newReach x hxst hx0
    · exact reach_trans (reach_edge hnb) (P.newReach x hx1 hxst)
  · intro x hx1 hx0
    by_cases hxst : visitedT st x
    · have : idxv stv x = idxv st x := idxv_congr (P.idxFrame x hxst)
      show st0.counter ≤ idxv stv x
      rw [this]
      exact hinv.newIdxBig x hxst hx0
    · have h1 := P.newIdxBig x hx1 hxst
      have h2 := hinv.counterMono
      show st0.counter ≤ idxv stv x
      omega
  · rcases P.stackFrame with ⟨new2, heq2, hfresh2⟩
    rcases hinv.stackFrame with ⟨new1, heq1, hfresh1⟩
    refine ⟨new2 ++ new1, ?_, ?_⟩
    · show stv.stack = _
      rw [heq2, heq1, List.append_assoc]
    · intro n hn
      rcases List.mem_append.mp hn with h | h
      · intro hcon
        exact hfresh2 n h (hinv.visMono n hcon)
      · exact hfresh1 n h
  · intro x hx hx0 hxv
    rw [lowv_lowMinUpd_ne stv v x _ (fun hh => hxv hh.symm)]
    by_cases hxst : visitedT st x
    · have h1 : lowv stv x = lowv st x := lowv_congr (P.lowFrame x hxst)
      have h2 : idxv stv x = idxv st x := idxv_congr (P.idxFrame x hxst)
      show lowv stv x < idxv stv x
      rw [h1, h2]
      exact hinv.newStrict x (hmem_st x hx hxst) hx0 hxv
    · by_cases hxnb : x = nb
      · subst hxnb
        exact P.vStrict hx
      · exact P.newStrict x hx hxst hxnb
  · intro x hx hx0
    by_cases hxv : x = v
    · subst hxv
      exact le_refl _
    · rw [lowv_lowMinUpd_ne stv v x _ (fun hh => hxv hh.symm),
        lowv_lowMinUpd_self]
      by_cases hxst : visitedT st x
      · have h1 : lowv stv x = lowv st x := lowv_congr (P.lowFrame x hxst)
        rw [h1]
        refine le_trans (min_le_left _ _) ?_
        rw [hlowveq]
        exact hinv.subLow x (hmem_st x hx hxst) hx0
      · exact le_trans (min_le_right _ _) (P.subLow x hx hxst)
  · have h1 : unvisCount g (lowMinUpd stv v (min (lowv stv v) (lowv stv nb))) =
        unvisCount g stv := rfl
    rw [h1]
    exact lt_trans P.unvisLt hinv.unvisLt
  · refine ⟨hvisnb, Or.inl ?_⟩
    rw [lowv_lowMinUpd_self]
    have h2 : idxv (lowMinUpd stv v (min (lowv stv v) (lowv stv nb))) nb =
        idxv stv nb := rfl
    rw [h2]
    exact le_trans (min_le_right _ _) (P.wf.lowLe nb hvisnb)
  · refine ⟨fun x h => P.visMono x h, fun x h => P.idxFrame x h,
      fun x h => P.popMono x h, ?_⟩
    rw [lowv_lowMinUpd_self]
    rw [hlowveq]
    exact min_le_left _ _

/-- Every stack node of a loop state reaches the loop node `v`: old nodes
by the entry precondition, fresh nodes by chain descent. -/
theorem tninv_stack_reach (g : Dict) (A : List String) (v : String)
    (st0 st : TarjanState) (hpre : SCPre g A v st0)
    (hinv : TNInv g A v st0 st) : ∀ x ∈ st.stack, Reach g x v := by
  have hvcnt : idxv st v = st0.counter := idxv_of_some hinv.vIdx
  have hold : ∀ y ∈ st.stack, idxv st y < st0.counter → Reach g y v := by
    intro y hy hylt
    rcases hinv.stackFrame with ⟨new1, heq1, hfresh1⟩
    rw [heq1] at hy
    rcases List.mem_append.mp hy with h | h
    · exfalso
      have hyvis := hinv.wf.stackVis y
        (by rw [heq1]; exact List.mem_append_left _ h)
      have := hinv.newIdxBig y hyvis (hfresh1 y h)
      omega
    · exact hpre.stackReach y h
  have hstrict : ∀ y ∈ st.stack, st0.counter ≤ idxv st y →
      y ≠ v → lowv st y < idxv st y := by
    intro y hy hyge hyv
    by_cases hy0 : visitedT st0 y
    · exfalso
      have h1 : idxv st y = idxv st0 y :=
        idxv_congr (hinv.idxFrame y hy0)
      have h2 := hpre.wf.counterBig y hy0
      omega
    · exact hinv.newStrict y hy hy0 hyv
  intro x hx
  by_cases hxold : idxv st x < st0.counter
  · exact hold x hx hxold
  · exact stack_descend g st v st0.counter hinv.wf.achieved
      hvcnt hold hstrict x hx (by omega)

/-! ### The neighbor loop -/

/-- Folding the neighbor-loop step over an adjacency list preserves the
loop invariant and records the per-neighbor facts. -/
theorem tn_loop (g : Dict) (A : List String) (v : String) (st0 : TarjanState)
    (fuel : Nat) (hfuel : unvisCount g st0 ≤ fuel)
    (hpre : SCPre g A v st0)
    (IH : ∀ (A2 : List String) (w : String) (stc : TarjanState),
      SCPre g A2 w stc → unvisCount g stc < fuel →
      SCPost g A2 w stc (strongconnect g fuel w stc)) :
    ∀ (nbs : List String) (st : TarjanState), TNInv g A v st0 st →
      (∀ z ∈ nbs, z ∈ lookupSet g v) →
      TNInv g A v st0 (tarjanNeighbors (strongconnect g fuel) v nbs st) ∧
      (∀ z ∈ nbs,
        NbFact g v (tarjanNeighbors (strongconnect g fuel) v nbs st) z) ∧
      TStep v st (tarjanNeighbors (strongconnect g fuel) v nbs st) := by
  intro nbs
  induction nbs with
  | nil =>
      intro st hinv _
      refine ⟨hinv, ?_, tstep_refl v st⟩
      intro z hz
      simp at hz
  | cons nb rest ih =>
      intro st hinv hnbs
      rw [tarjanNeighbors_cons]
      have hnb : nb ∈ lookupSet g v := hnbs nb (List.mem_cons_self _ _)
      have hstep : TNInv g A v st0 (tnStep (strongconnect g fuel) v nb st) ∧
          NbFact g v (tnStep (strongconnect g fuel) v nb st) nb ∧
          TStep v st (tnStep (strongconnect g fuel) v nb st) := by
        by_cases hvis : (assocFind st.index nb).isNone = true
        · have hunvis : ¬ visitedT st nb :=
            fun hv => (visitedT_iff_not_isNone st nb).mp hv hvis
          have hpre2 : SCPre g (v :: A) nb st := by
            refine ⟨hinv.wf, hinv.done, hinv.elow, hunvis,
              lookupSet_sub_relevant g v nb hnb, ?_, ?_⟩
            · intro a ha
              rcases List.mem_cons.mp ha with h | h
              · exact h ▸ hinv.vOn
              · rcases hinv.stackFrame with ⟨new1, heq1, _⟩
                rw [heq1]
                exact List.mem_append_right _ (hpre.aStack a h)
            · intro x hx
              exact reach_trans (tninv_stack_reach g A v st0 st hpre hinv x hx)
                (reach_edge hnb)
          have P := IH (v :: A) nb st hpre2
            (lt_of_lt_of_le hinv.unvisLt hfuel)
          rw [tnStep_unvis _ _ _ _ hvis]
          exact tn_step_call g A v st0 st _ hpre hinv nb hnb P
        · have hvisnb : visitedT st nb :=
            (visitedT_iff_not_isNone st nb).mpr hvis
          by_cases honb : nb ∈ st.on_stack
          · rw [tnStep_back _ _ _ _ hvis honb]
            exact tn_step_back g A v st0 st hpre hinv nb hnb
              (hinv.wf.ons ▸ honb)
          · rw [tnStep_skip _ _ _ _ hvis honb]
            refine ⟨hinv, tn_step_popped g v st nb hvisnb ?_, tstep_refl v st⟩
            intro hcon
            exact honb (hinv.wf.ons.symm ▸ hcon)
      obtain ⟨hinv2, hfact, hstep2⟩ := hstep
      obtain ⟨hinv3, hfacts, hstep3⟩ :=
        ih _ hinv2 (fun z hz => hnbs z (List.mem_cons_of_mem _ hz))
      refine ⟨hinv3, ?_, tstep_trans hstep2 hstep3⟩
      intro z hz
      rcases List.mem_cons.mp hz with h | h
      · subst h
        exact nbFact_step hfact hstep3
      · exact hfacts z h

/-! ### List splitting helpers for the pop -/

theorem append_pred_split {α : Type} (P : α → Prop) :
    ∀ (a1 a2 b1 b2 : List α), a1 ++ b1 = a2 ++ b2 →
      (∀ x ∈ a1, P x) → (∀ x ∈ b1, ¬ P x) →
      (∀ x ∈ a2, P x) → (∀ x ∈ b2, ¬ P x) → a1 = a2 := by
  intro a1
  induction a1 with
  | nil =>
      intro a2 b1 b2 heq h1 h2 h3 h4
      cases a2 with
      | nil => rfl
      | cons y ys =>
          exfalso
          simp only [List.nil_append] at heq
          have hy : y ∈ b1 := by
            rw [heq]
            exact List.mem_cons_self _ _
          exact h2 y hy (h3 y (List.mem_cons_self _ _))
  | cons x xs ih =>
      intro a2 b1 b2 heq h1 h2 h3 h4
      cases a2 with
      | nil =>
          exfalso
          simp only [List.nil_append] at heq
          have hx : x ∈ b2 := by
            rw [← heq]
            exact List.mem_cons_self _ _
          exact h4 x hx (h1 x (List.mem_cons_self _ _))
      | cons y ys =>
          simp only [List.cons_append] at heq
          have hxy : x = y := by
            have := congrArg (fun l => l.head?) heq
            simpa using this
          subst hxy
          have htail : xs ++ b1 = ys ++ b2 := by
            have := congrArg (fun l => l.tail) heq
            simpa using this
          rw [ih ys b1 b2 htail
            (fun a ha => h1 a (List.mem_cons_of_mem _ ha)) h2
            (fun a ha => h3 a (List.mem_cons_of_mem _ ha)) h4]

theorem filter_not_mem_append (l1 l2 : List String)
    (hnd : (l1 ++ l2).Nodup) :
    (l1 ++ l2).filter (fun w => ¬ w ∈ l1) = l2 := by
  have hdisj : l1.Disjoint l2 := (List.nodup_append.mp hnd).2.2
  rw [List.filter_append]
  have h1 : l1.filter (fun w => ¬ w ∈ l1) = [] := by
    rw [List.filter_eq_nil_iff]
    intro a ha
    simp [ha]
  have h2 : l2.filter (fun w => ¬ w ∈ l1) = l2 := by
    rw [List.filter_eq_self]
    intro a ha
    simp only [decide_eq_true_eq]
    exact fun hcon => hdisj hcon ha
  rw [h1, h2, List.nil_append]

/-! ### Members of the popped component -/

/-- At a successful root check, every node mutually reachable with the root
is on the stack at or above the root index. -/
theorem pop_members (g : Dict) (A : List String) (v : String)
    (st0 st2 : TarjanState) (hpre : SCPre g A v st0)
    (hinv : TNInv g A v st0 st2)
    (hnb : ∀ z ∈ lookupSet g v, NbFact g v st2 z)
    (hlowidx : lowv st2 v = st0.counter) :
    ∀ z, Reach g v z → Reach g z v →
      z ∈ st2.stack ∧ st0.counter ≤ idxv st2 z := by
  intro z hvz
  induction hvz with
  | refl =>
      intro _
      exact ⟨hinv.vOn, le_of_eq (idxv_of_some hinv.vIdx).symm⟩
  | @tail b c hvb hbc ih =>
      intro hcv
      have hbv : Reach g b v := reach_trans (reach_edge hbc) hcv
      obtain ⟨hbstk, hbidx⟩ := ih hbv
      have hbvis : visitedT st2 b := hinv.wf.stackVis b hbstk
      have hreach_vc : Reach g v c := Relation.ReflTransGen.tail hvb hbc
      by_cases hbv2 : b = v
      · have hbc2 : c ∈ lookupSet g v := hbv2 ▸ hbc
        have hcvis : visitedT st2 c := (hnb c hbc2).1
        have hcstk : c ∈ st2.stack := by
          by_contra hcon
          exact (hinv.wf.popClosed c ⟨hcvis, hcon⟩ v ⟨hcv, hreach_vc⟩).2
            hinv.vOn
        refine ⟨hcstk, ?_⟩
        rcases (hnb c hbc2).2 with h | h
        · rw [hlowidx] at h
          exact h
        · exact absurd hcstk h.2
      · have hbA : ¬ b ∈ (v :: A) := by
          intro hcon
          rcases List.mem_cons.mp hcon with h | h
          · exact hbv2 h
          · have hb0 : b ∈ st0.stack := hpre.aStack b h
            have hb0vis : visitedT st0 b := hpre.wf.stackVis b hb0
            have h1 : idxv st2 b = idxv st0 b :=
              idxv_congr (hinv.idxFrame b hb0vis)
            have h2 := hpre.wf.counterBig b hb0vis
            omega
        have hcvis : visitedT st2 c := hinv.done b hbvis hbA c hbc
        have hcstk : c ∈ st2.stack := by
          by_contra hcon
          exact (hinv.wf.popClosed c ⟨hcvis, hcon⟩ v ⟨hcv, hreach_vc⟩).2
            hinv.vOn
        refine ⟨hcstk, ?_⟩
        have h1 : lowv st2 b ≤ idxv st2 c := hinv.elow b hbvis hbA c hbc hcstk
        have hb0 : ¬ visitedT st0 b := by
          intro hcon
          have h2 : idxv st2 b = idxv st0 b :=
            idxv_congr (hinv.idxFrame b hcon)
          have h3 := hpre.wf.counterBig b hcon
          omega
        have h4 := hinv.subLow b hbstk hb0
        rw [hlowidx] at h4
        omega

/-- When the root check fails, the loop exit state itself satisfies the
call postcondition. -/
theorem nopop_assemble (g : Dict) (A : List String) (v : String)
    (st0 st2 : TarjanState) (hpre : SCPre g A v st0)
    (hinv : TNInv g A v st0 st2)
    (hnb : ∀ z ∈ lookupSet g v, NbFact g v st2 z)
    (hcheck : ¬ assocFind st2.lowlink v = assocFind st2.index v) :
    SCPost g A v st0 st2 := by
  have hvvis : visitedT st2 v := visitedT_of_some hinv.vIdx
  have hvstrict : lowv st2 v < idxv st2 v := by
    have hle := hinv.wf.lowLe v hvvis
    have hlowsome := hinv.wf.lowDef v hvvis
    rcases Option.isSome_iff_exists.mp hlowsome with ⟨l, hl⟩
    have hlv : lowv st2 v = l := by
      rw [lowv, hl]
      rfl
    have hiv : idxv st2 v = st0.counter := idxv_of_some hinv.vIdx
    have hne : l ≠ st0.counter := by
      intro hcon
      apply hcheck
      rw [hl, hinv.vIdx, hcon]
    omega
  refine ⟨hinv.wf, ?_, ?_, hinv.idxFrame, hinv.lowFrame, hinv.visMono,
    hinv.popMono, hinv.sccsMono, hinv.counterMono, hinv.vIdx, hinv.newReach,
    hinv.newIdxBig, hinv.stackFrame, Or.inl hinv.vOn, fun _ => hvstrict,
    Or.inl hinv.vOn, hinv.newStrict, hinv.subLow, hinv.unvisLt⟩
  · intro x hx hxa z hz
    by_cases hxv : x = v
    · subst hxv
      exact (hnb z hz).1
    · refine hinv.done x hx ?_ z hz
      intro hcon
      rcases List.mem_cons.mp hcon with h | h
      · exact hxv h
      · exact hxa h
  · intro x hx hxa z hz hzs
    by_cases hxv : x = v
    · subst hxv
      rcases (hnb z hz).2 with h | h
      · exact h
      · exact absurd hzs h.2
    · refine hinv.elow x hx ?_ z hz hzs
      intro hcon
      rcases List.mem_cons.mp hcon with h | h
      · exact hxv h
      · exact hxa h

/-- Core construction of the call postcondition in the pop branch: state
`st3` pops the component `s`, the prefix of the stack at or above the
root index. -/
theorem pop_build_post (g : Dict) (A : List String) (v : String)
    (st0 st2 st3 : TarjanState) (s r : List String)
    (hpre : SCPre g A v st0) (hinv : TNInv g A v st0 st2)
    (hnb : ∀ z ∈ lookupSet g v, NbFact g v st2 z)
    (hlowidx : lowv st2 v = st0.counter)
    (hsr : st2.stack = s ++ r)
    (hs_last : ∃ pre, s = pre ++ [v] ∧ ∀ w ∈ pre, w ≠ v)
    (hstk3 : st3.stack = r)
    (hons3 : st3.on_stack = st2.on_stack.filter (fun w => ¬ w ∈ s))
    (hsccs3 : st3.sccs =
      if s.length > 1 then st2.sccs ++ [s] else st2.sccs)
    (hidx3 : st3.index = st2.index)
    (hlow3 : st3.lowlink = st2.lowlink)
    (hcnt3 : st3.counter = st2.counter) :
    SCPost g A v st0 st3 := by
  have hvvis : visitedT st2 v := visitedT_of_some hinv.vIdx
  have hidxveq : idxv st2 v = st0.counter := idxv_of_some hinv.vIdx
  obtain ⟨pre, hpre_s, hprene⟩ := hs_last
  have hvis3 : ∀ x, visitedT st3 x ↔ visitedT st2 x := by
    intro x
    rw [visitedT, visitedT, hidx3]
  have hidxv3 : ∀ x, idxv st3 x = idxv st2 x := by
    intro x
    rw [idxv, idxv, hidx3]
  have hlowv3 : ∀ x, lowv st3 x = lowv st2 x := by
    intro x
    rw [lowv, lowv, hlow3]
  have hnods : (s ++ r).Nodup := hsr ▸ hinv.wf.nodup
  have hdisj : s.Disjoint r := (List.nodup_append.mp hnods).2.2
  have hsorted : (s ++ r).Pairwise (fun a b => idxv st2 b < idxv st2 a) :=
    hsr ▸ hinv.wf.sorted
  have hv_in_s : v ∈ s := by
    rw [hpre_s]
    exact List.mem_append_right _ (List.mem_singleton_self v)
  have hs_all : ∀ x ∈ s, st0.counter ≤ idxv st2 x := by
    intro x hx
    have hps : s.Pairwise (fun a b => idxv st2 b < idxv st2 a) :=
      (List.pairwise_append.mp hsorted).1
    rw [hpre_s] at hps hx
    rcases List.mem_append.mp hx with h | h
    · have hlt := (List.pairwise_append.mp hps).2.2 x h v
        (List.mem_singleton_self v)
      omega
    · rw [List.mem_singleton] at h
      subst h
      omega
  have hr_all : ∀ x ∈ r, idxv st2 x < st0.counter := by
    intro x hx
    have hcross := (List.pairwise_append.mp hsorted).2.2 v hv_in_s x hx
    omega
  obtain ⟨new, hnew, hfresh⟩ := hinv.stackFrame
  have hnew_all : ∀ x ∈ new, st0.counter ≤ idxv st2 x := by
    intro x hx
    exact hinv.newIdxBig x
      (hinv.wf.stackVis x (by rw [hnew]; exact List.mem_append_left _ hx))
      (hfresh x hx)
  have hold_all : ∀ x ∈ st0.stack, idxv st2 x < st0.counter := by
    intro x hx
    have hx0 := hpre.wf.stackVis x hx
    have h1 : idxv st2 x = idxv st0 x := idxv_congr (hinv.idxFrame x hx0)
    have h2 := hpre.wf.counterBig x hx0
    omega
  have hs_new : s = new := by
    refine append_pred_split (fun w => st0.counter ≤ idxv st2 w) s new r
      st0.stack (by rw [← hsr]; exact hnew) hs_all ?_ hnew_all ?_
    · intro x hx
      have := hr_all x hx
      omega
    · intro x hx
      have := hold_all x hx
      omega
  have hr_old : r = st0.stack := by
    have heq2 : s ++ r = s ++ st0.stack := by
      rw [← hsr]
      rw [hs_new]
      exact hnew
    exact List.append_cancel_left heq2
  have hmem_s : ∀ x, x ∈ s ↔ (x ∈ st2.stack ∧ st0.counter ≤ idxv st2 x) := by
    intro x
    constructor
    · intro hx
      exact ⟨by rw [hsr]; exact List.mem_append_left _ hx, hs_all x hx⟩
    · rintro ⟨hx, hge⟩
      rw [hsr] at hx
      rcases List.mem_append.mp hx with h | h
      · exact h
      · exact absurd (hr_all x h) (by omega)
  have hmut_vs : ∀ w ∈ s, Mutual g v w := by
    intro w hw
    constructor
    · have hwfresh : ¬ visitedT st0 w := by
        rw [hs_new] at hw
        exact hfresh w hw
      exact hinv.newReach w (hinv.wf.stackVis w ((hmem_s w).mp hw).1) hwfresh
    · exact tninv_stack_reach g A v st0 st2 hpre hinv w ((hmem_s w).mp hw).1
  have hpm := pop_members g A v st0 st2 hpre hinv hnb hlowidx
  have hmut_to_s : ∀ z, Mutual g v z → z ∈ s := by
    intro z hz
    exact (hmem_s z).mpr (hpm z hz.1 hz.2)
  have hpop3 : ∀ x, poppedT st3 x ↔ (poppedT st2 x ∨ x ∈ s) := by
    intro x
    rw [poppedT, poppedT, hvis3 x, hstk3]
    constructor
    · rintro ⟨hv, hnr⟩
      by_cases hL : x ∈ st2.stack
      · rw [hsr] at hL
        rcases List.mem_append.mp hL with h | h
        · exact Or.inr h
        · exact absurd h hnr
      · exact Or.inl ⟨hv, hL⟩
    · rintro (⟨hv, hns⟩ | hxs)
      · exact ⟨hv, fun hcon =>
          hns (by rw [hsr]; exact List.mem_append_right _ hcon)⟩
      · refine ⟨hinv.wf.stackVis x ((hmem_s x).mp hxs).1, ?_⟩
        intro hcon
        exact hdisj hxs hcon
  have hsccs_sub : ∀ l, l ∈ st2.sccs → l ∈ st3.sccs := by
    intro l hl
    rw [hsccs3]
    by_cases h : s.length > 1
    · rw [if_pos h]
      exact List.mem_append_left _ hl
    · rw [if_neg h]
      exact hl
  refine ⟨⟨?_, ?_, ?_, ?_, ?_, ?_, ?_, ?_, ?_, ?_⟩,
    ?_, ?_, ?_, ?_, ?_, ?_, ?_, ?_, ?_, ?_, ?_, ?_, ?_, ?_, ?_, ?_, ?_, ?_⟩
  · rw [hons3, hstk3, hinv.wf.ons, hsr]
    exact filter_not_mem_append s r hnods
  · rw [hstk3]
    exact (List.nodup_append.mp hnods).2.1
  · intro x hx
    rw [hstk3] at hx
    exact (hvis3 x).mpr (hinv.wf.stackVis x
      (by rw [hsr]; exact List.mem_append_right _ hx))
  · rw [hstk3]
    refine List.Pairwise.imp ?_ ((List.pairwise_append.mp hsorted).2.1)
    intro a b hab
    rw [hidxv3, hidxv3]
    exact hab
  · intro x hx
    rw [hidxv3, hcnt3]
    exact hinv.wf.counterBig x ((hvis3 x).mp hx)
  · intro x hx
    show (assocFind st3.lowlink x).isSome = true
    rw [hlow3]
    exact hinv.wf.lowDef x ((hvis3 x).mp hx)
  · intro x hx
    rw [hlowv3, hidxv3]
    exact hinv.wf.lowLe x ((hvis3 x).mp hx)
  · intro x hx
    rw [hstk3] at hx
    have hxL : x ∈ st2.stack := by
      rw [hsr]
      exact List.mem_append_right _ hx
    rcases hinv.wf.achieved x hxL with ⟨y, hyL, hr2, hyidx⟩
    have hxvis := hinv.wf.stackVis x hxL
    have hybound : idxv st2 y < st0.counter := by
      have h1 := hinv.wf.lowLe x hxvis
      have h2 := hr_all x hx
      omega
    have hyr : y ∈ r := by
      rw [hsr] at hyL
      rcases List.mem_append.mp hyL with h | h
      · exact absurd (hs_all y h) (by omega)
      · exact h
    refine ⟨y, by rw [hstk3]; exact hyr, hr2, ?_⟩
    rw [hidxv3, hlowv3]
    exact hyidx
  · intro x hx z hz
    rcases (hpop3 x).mp hx with h | h
    · exact (hpop3 z).mpr (Or.inl (hinv.wf.popClosed x h z hz))
    · exact (hpop3 z).mpr (Or.inr (hmut_to_s z
        (mutual_trans (hmut_vs x h) hz)))
  · intro x hx
    rcases (hpop3 x).mp hx with h | h
    · rcases hinv.wf.popRecorded x h with ⟨l, hl, hiff⟩ | hsing
      · exact Or.inl ⟨l, hsccs_sub l hl, hiff⟩
      · exact Or.inr hsing
    · have hmvx : Mutual g v x := hmut_vs x h
      have hiff : ∀ y, y ∈ s ↔ Mutual g x y := by
        intro y
        constructor
        · intro hy
          exact mutual_trans (mutual_symm hmvx) (hmut_vs y hy)
        · intro hy
          exact hmut_to_s y (mutual_trans hmvx hy)
      by_cases hlen : s.length > 1
      · refine Or.inl ⟨s, ?_, hiff⟩
        rw [hsccs3, if_pos hlen]
        exact List.mem_append_right _ (List.mem_singleton_self s)
      · refine Or.inr ?_
        have hsv : s = [v] := by
          have hlen2 : s.length ≤ 1 := Nat.not_lt.mp hlen
          rw [hpre_s, List.length_append, List.length_singleton] at hlen2
          have hpre_nil : pre = [] := List.length_eq_zero.mp (by omega)
          rw [hpre_s, hpre_nil, List.nil_append]
        intro y hy
        have hys : y ∈ s := (hiff y).mpr hy
        have hxs2 : x ∈ s := h
        rw [hsv, List.mem_singleton] at hys hxs2
        rw [hys, hxs2]
  · intro x hx hxa z hz
    rw [hvis3] at hx ⊢
    by_cases hxv : x = v
    · subst hxv
      exact (hnb z hz).1
    · refine hinv.done x hx ?_ z hz
      intro hcon
      rcases List.mem_cons.mp hcon with hh | hh
      · exact hxv hh
      · exact hxa hh
  · intro x hx hxa z hz hzs
    rw [hvis3] at hx
    rw [hstk3] at hzs
    have hzL : z ∈ st2.stack := by
      rw [hsr]
      exact List.mem_append_right _ hzs
    rw [hlowv3, hidxv3]
    by_cases hxv : x = v
    · subst hxv
      rcases (hnb z hz).2 with hh | hh
      · exact hh
      · exact absurd hzL hh.2
    · refine hinv.elow x hx ?_ z hz hzL
      intro hcon
      rcases List.mem_cons.mp hcon with hh | hh
      · exact hxv hh
      · exact hxa hh
  · intro x hx0
    show assocFind st3.index x = _
    rw [hidx3]
    exact hinv.idxFrame x hx0
  · intro x hx0
    show assocFind st3.lowlink x = _
    rw [hlow3]
    exact hinv.lowFrame x hx0
  · intro x hx0
    exact (hvis3 x).mpr (hinv.visMono x hx0)
  · intro x hx0
    exact (hpop3 x).mpr (Or.inl (hinv.popMono x hx0))
  · rcases hinv.sccsMono with ⟨add, hadd⟩
    rw [hsccs3]
    by_cases h : s.length > 1
    · rw [if_pos h]
      exact ⟨add ++ [s], by rw [hadd, List.append_assoc]⟩
    · rw [if_neg h]
      exact ⟨add, hadd⟩
  · rw [hcnt3]
    exact hinv.counterMono
  · show assocFind st3.index v = _
    rw [hidx3]
    exact hinv.vIdx
  · intro x h1 h0
    exact hinv.newReach x ((hvis3 x).mp h1) h0
  · intro x h1 h0
    rw [hidxv3]
    exact hinv.newIdxBig x ((hvis3 x).mp h1) h0
  · refine ⟨[], ?_, ?_⟩
    · rw [hstk3, hr_old, List.nil_append]
    · intro n hn
      simp at hn
  · refine Or.inr ?_
    rw [hstk3, hr_old]
  · intro hcon
    exfalso
    rw [hstk3, hr_old] at hcon
    exact hpre.vUnvis (hpre.wf.stackVis v hcon)
  · refine Or.inr ?_
    rw [hlowv3, hlowidx]
  · intro x hx h0 _
    exfalso
    rw [hstk3, hr_old] at hx
    exact h0 (hpre.wf.stackVis x hx)
  · intro x hx h0
    exfalso
    rw [hstk3, hr_old] at hx
    exact h0 (hpre.wf.stackVis x hx)
  · have hcount : unvisCount g st3 = unvisCount g st2 := by
      rw [unvisCount, unvisCount, hidx3]
    rw [hcount]
    exact hinv.unvisLt

/-- When the root check succeeds, popping the component establishes the
call postcondition. -/
theorem pop_assemble (g : Dict) (A : List String) (v : String)
    (st0 st2 : TarjanState) (hpre : SCPre g A v st0)
    (hinv : TNInv g A v st0 st2)
    (hnb : ∀ z ∈ lookupSet g v, NbFact g v st2 z)
    (hcheck : assocFind st2.lowlink v = assocFind st2.index v) :
    SCPost g A v st0 (popState v st2) := by
  have hlowidx : lowv st2 v = st0.counter := by
    rw [lowv, hcheck, hinv.vIdx]
    rfl
  obtain ⟨pre, hpr2, hprene, hsplit⟩ := popUntil_split v st2.stack hinv.vOn
  refine pop_build_post g A v st0 st2 (popState v st2)
    ((popUntil v st2.stack).2) ((popUntil v st2.stack).1)
    hpre hinv hnb hlowidx ?_ ⟨pre, hpr2, hprene⟩ rfl rfl rfl rfl rfl rfl
  rw [hpr2, List.append_assoc, List.singleton_append]
  exact hsplit.symm

/-! ### The main induction -/

/-- Soundness of `strongconnect` with respect to the call contract, by
induction on the fuel. -/
theorem strongconnect_sound : ∀ (fuel : Nat) (g : Dict) (A : List String)
    (v : String) (st : TarjanState), SCPre g A v st →
    unvisCount g st < fuel →
    SCPost g A v st (strongconnect g fuel v st) := by
  intro fuel
  induction fuel with
  | zero =>
      intro g A v st _ hf
      omega
  | succ fuel ih =>
      intro g A v st hpre hf
      have hinv1 : TNInv g A v st (pushState v st) := push_inv g A v st hpre
      have hfuel : unvisCount g st ≤ fuel := by omega
      obtain ⟨hinv2, hnb, _⟩ := tn_loop g A v st fuel hfuel hpre
        (fun A2 w stc hp hlt => ih g A2 w stc hp hlt)
        (lookupSet g v) (pushState v st) hinv1 (fun z hz => hz)
      show SCPost g A v st
        (if assocFind (tarjanNeighbors (strongconnect g fuel) v
              (lookupSet g v) (pushState v st)).lowlink v =
            assocFind (tarjanNeighbors (strongconnect g fuel) v
              (lookupSet g v) (pushState v st)).index v then
          popState v (tarjanNeighbors (strongconnect g fuel) v
            (lookupSet g v) (pushState v st))
        else tarjanNeighbors (strongconnect g fuel) v
          (lookupSet g v) (pushState v st))
      by_cases hcheck : assocFind (tarjanNeighbors (strongconnect g fuel) v
            (lookupSet g v) (pushState v st)).lowlink v =
          assocFind (tarjanNeighbors (strongconnect g fuel) v
            (lookupSet g v) (pushState v st)).index v
      · rw [if_pos hcheck]
        exact pop_assemble g A v st _ hpre hinv2 hnb hcheck
      · rw [if_neg hcheck]
        exact nopop_assemble g A v st _ hpre hinv2 hnb hcheck

/-! ### The top-level loop over the dictionary keys -/

/-- The initial Tarjan state. -/
def tarjanInit : TarjanState := ⟨0, [], [], [], [], []⟩

/-- The fold of `tarjan_scc` over a key list. -/
def runFold (g : Dict) (keys : List String) (st : TarjanState) :
    TarjanState :=
  keys.foldl (fun st node =>
    if (assocFind st.index node).isNone then
      strongconnect g (tarjanFuel g) node st
    else st) st

theorem runFold_cons (g : Dict) (k : String) (keys : List String)
    (st : TarjanState) :
    runFold g (k :: keys) st = runFold g keys
      (if (assocFind st.index k).isNone then
        strongconnect g (tarjanFuel g) k st
      else st) := rfl

theorem tarjan_scc_eq_runFold (g : Dict) :
    tarjan_scc g = (runFold g (dictKeys g) tarjanInit).sccs := rfl

theorem not_visited_init (x : String) : ¬ visitedT tarjanInit x := by
  show ¬ ((assocFind [] x).isSome = true)
  simp [assocFind]

theorem twf_init (g : Dict) : TWF g tarjanInit := by
  refine ⟨rfl, List.nodup_nil, ?_, List.Pairwise.nil, ?_, ?_, ?_, ?_, ?_, ?_⟩
  · intro x hx
    exact absurd hx (List.not_mem_nil x)
  · intro x hx
    exact absurd hx (not_visited_init x)
  · intro x hx
    exact absurd hx (not_visited_init x)
  · intro x hx
    exact absurd hx (not_visited_init x)
  · intro x hx
    exact absurd hx (List.not_mem_nil x)
  · intro x hx
    exact absurd hx.1 (not_visited_init x)
  · intro x hx
    exact absurd hx.1 (not_visited_init x)

theorem doneExcept_init (g : Dict) (A : List String) :
    DoneExcept g tarjanInit A :=
  fun x hx => absurd hx (not_visited_init x)

theorem edgeLow_init (g : Dict) (A : List String) :
    EdgeLow g tarjanInit A :=
  fun x hx => absurd hx (not_visited_init x)

/-- Invariant of the top-level fold: the state stays well formed with an
empty stack, every processed key is visited, and the visited set grows. -/
theorem tarjan_fold_inv (g : Dict) :
    ∀ (keys : List String) (st : TarjanState),
      (∀ k ∈ keys, k ∈ relevantNodes g) →
      TWF g st → DoneExcept g st [] → EdgeLow g st [] → st.stack = [] →
      TWF g (runFold g keys st) ∧ DoneExcept g (runFold g keys st) [] ∧
      EdgeLow g (runFold g keys st) [] ∧ (runFold g keys st).stack = [] ∧
      (∀ k ∈ keys, visitedT (runFold g keys st) k) ∧
      (∀ x, visitedT st x → visitedT (runFold g keys st) x) := by
  intro keys
  induction keys with
  | nil =>
      intro st _ hwf hdone helow hempty
      exact ⟨hwf, hdone, helow, hempty, fun k hk => absurd hk
        (List.not_mem_nil k), fun x hx => hx⟩
  | cons k keys ih =>
      intro st hrel hwf hdone helow hempty
      rw [runFold_cons]
      by_cases hk : (assocFind st.index k).isNone = true
      · rw [if_pos hk]
        have hunvis : ¬ visitedT st k :=
          fun hv => (visitedT_iff_not_isNone st k).mp hv hk
        have hpre : SCPre g [] k st := by
          refine ⟨hwf, hdone, helow, hunvis,
            hrel k (List.mem_cons_self _ _), ?_, ?_⟩
          · intro a ha
            exact absurd ha (List.not_mem_nil a)
          · intro x hx
            rw [hempty] at hx
            exact absurd hx (List.not_mem_nil x)
        have P := strongconnect_sound (tarjanFuel g) g [] k st hpre
          (unvisCount_lt_fuel g st)
        have hstack2 : (strongconnect g (tarjanFuel g) k st).stack = [] := by
          rcases P.vCases with h | h
          · exfalso
            have hstrict := P.vStrict h
            rcases P.wf.achieved k h with ⟨y, hy, hr, hyidx⟩
            have hyvis := P.wf.stackVis y hy
            rcases P.stackFrame with ⟨new, hnew, hfresh⟩
            have hyfresh : ¬ visitedT st y := by
              rw [hnew] at hy
              rcases List.mem_append.mp hy with hh | hh
              · exact hfresh y hh
              · rw [hempty] at hh
                exact absurd hh (List.not_mem_nil y)
            have hybig := P.newIdxBig y hyvis hyfresh
            have hkidx : idxv (strongconnect g (tarjanFuel g) k st) k =
                st.counter := idxv_of_some P.vIdx
            have hklow := P.wf.lowLe k (visitedT_of_some P.vIdx)
            omega
          · rw [h, hempty]
        obtain ⟨hw2, hd2, he2, hs2, hk2, hm2⟩ := ih
          (strongconnect g (tarjanFuel g) k st)
          (fun k2 hk2 => hrel k2 (List.mem_cons_of_mem _ hk2))
          P.wf P.done P.elow hstack2
        refine ⟨hw2, hd2, he2, hs2, ?_, ?_⟩
        · intro k2 hk2m
          rcases List.mem_cons.mp hk2m with hh | hh
          · subst hh
            exact hm2 k2 (visitedT_of_some P.vIdx)
          · exact hk2 k2 hh
        · intro x hx
          exact hm2 x (P.visMono x hx)
      · rw [if_neg hk]
        have hvisk : visitedT st k := (visitedT_iff_not_isNone st k).mpr hk
        obtain ⟨hw2, hd2, he2, hs2, hk2, hm2⟩ := ih st
          (fun k2 hk2 => hrel k2 (List.mem_cons_of_mem _ hk2))
          hwf hdone helow hempty
        refine ⟨hw2, hd2, he2, hs2, ?_, hm2⟩
        intro k2 hk2m
        rcases List.mem_cons.mp hk2m with hh | hh
        · subst hh
          exact hm2 k2 hvisk
        · exact hk2 k2 hh

/-! ### Completeness -/

/-- Completeness of the embedded Tarjan pass: every strongly connected
component with more than one node is reported by `tarjan_scc`, as a list
with exactly the members of the component. -/
theorem tarjan_complete (g : Dict) (S : List String) (hnd : S.Nodup)
    (hlen : 1 < S.length) (hS : SccOf g S) :
    ∃ l ∈ tarjan_scc g, ∀ x, x ∈ l ↔ x ∈ S := by
  obtain ⟨hne, hmut, hmax⟩ := hS
  obtain ⟨a, b, hab, ha, hb⟩ : ∃ a b, a ≠ b ∧ a ∈ S ∧ b ∈ S := by
    rcases S with _ | ⟨a, _ | ⟨b, rest⟩⟩
    · simp at hlen
    · simp at hlen
    · refine ⟨a, b, ?_, List.mem_cons_self _ _,
        List.mem_cons_of_mem _ (List.mem_cons_self _ _)⟩
      intro h
      exact (List.nodup_cons.mp hnd).1 (h ▸ List.mem_cons_self b rest)
  have hreach_ab : Reach g a b := hmut a ha b hb
  have hakey : a ∈ dictKeys g := mem_keys_of_reach_ne hreach_ab hab
  obtain ⟨hwfF, hdoneF, helowF, hstackF, hkeysF, hmonoF⟩ :=
    tarjan_fold_inv g (dictKeys g) tarjanInit
      (fun k hk => keys_sub_relevant g k hk) (twf_init g)
      (doneExcept_init g []) (edgeLow_init g []) rfl
  have havis : visitedT (runFold g (dictKeys g) tarjanInit) a :=
    hkeysF a hakey
  have hapop : poppedT (runFold g (dictKeys g) tarjanInit) a := by
    refine ⟨havis, ?_⟩
    rw [hstackF]
    exact List.not_mem_nil a
  rcases hwfF.popRecorded a hapop with ⟨l, hl, hiff⟩ | hsing
  · refine ⟨l, ?_, ?_⟩
    · rw [tarjan_scc_eq_runFold]
      exact hl
    · intro x
      rw [hiff x]
      constructor
      · intro hmx
        exact hmax a ha x hmx
      · intro hxS
        exact ⟨hmut a ha x hxS, hmut x hxS a ha⟩
  · exfalso
    exact hab (hsing b ⟨hreach_ab, hmut b hb a ha⟩).symm

/-! ### Concrete instance -/

theorem scc_two_ring :
    SccOf [("X", ["Y"]), ("Y", ["X"])] ["X", "Y"] := by
  have hT : ∀ a ∈ ["X", "Y"],
      ∀ b ∈ lookupSet [("X", ["Y"]), ("Y", ["X"])] a, b ∈ ["X", "Y"] := by
    decide
  have hxy : Reach [("X", ["Y"]), ("Y", ["X"])] ("X") ("Y") :=
    reach_edge (by decide)
  have hyx : Reach [("X", ["Y"]), ("Y", ["X"])] ("Y") ("X") :=
    reach_edge (by decide)
  refine ⟨by decide, ?_, ?_⟩
  · intro a ha b hb
    rcases List.mem_cons.mp ha with h | h
    · subst h
      rcases List.mem_cons.mp hb with h2 | h2
      · subst h2
        exact reach_refl _ _
      · rw [List.mem_singleton] at h2
        subst h2
        exact hxy
    · rw [List.mem_singleton] at h
      subst h
      rcases List.mem_cons.mp hb with h2 | h2
      · subst h2
        exact hyx
      · rw [List.mem_singleton] at h2
        subst h2
        exact reach_refl _ _
  · intro a ha x hmx
    exact reach_mem_closed hT ha hmx.1

/-! ### Forward-adjacency preservation lemmas (for the type-only claim) -/

theorem foldl_preserve_mem {α β : Type} (P : α → Prop) (f : α → β → α) :
    ∀ (l : List β), (∀ st x, x ∈ l → P st → P (f st x)) →
      ∀ (st : α), P st → P (l.foldl f st)
  | [], _, _, h => h
  | x :: rest, hf, st, h =>
      foldl_preserve_mem P f rest
        (fun st' y hy h' => hf st' y (List.mem_cons_of_mem x hy) h')
        (f st x) (hf st x (List.mem_cons_self x rest) h)

/-- The forward entry at `r` is absent or empty. -/
def FindEmptyAt (r : String) (st : BuildState) : Prop :=
  dictFind st.forward r = none ∨ dictFind st.forward r = some []

theorem findEmpty_ensureKey (d : Dict) (k r : String)
    (h : dictFind d r = none ∨ dictFind d r = some []) :
    dictFind (ensureKey d k) r = none ∨ dictFind (ensureKey d k) r = some [] := by
  rw [dictFind_ensureKey]
  rcases h with h | h
  · rw [h]
    by_cases hrk : r = k <;> simp [hrk]
  · rw [h]
    simp

theorem findEmpty_process_import (rv : Resolver) (rel : String) (imp : Import)
    (st : BuildState) (r : String) (hne : rel ≠ r) (h : FindEmptyAt r st) :
    FindEmptyAt r (process_import rv rel st imp) := by
  rcases process_import_cases rv rel st imp with heq | ⟨tgt, _, _, _, heq⟩
  · rw [heq]; exact h
  · rw [heq]
    unfold FindEmptyAt at h ⊢
    have haddE : dictFind (addEdge st.forward rel tgt) r = dictFind st.forward r := by
      rw [dictFind_addEdge, if_neg (fun hh => hne hh.symm)]
    refine findEmpty_ensureKey _ _ _ ?_
    rw [haddE]
    exact h

theorem findEmpty_process_file (rv : Resolver) (st : BuildState) (g : FileRecord)
    (r : String) (hne : g.rel ≠ r) (h : FindEmptyAt r st) :
    FindEmptyAt r (process_file rv st g) := by
  unfold process_file
  cases hdl : detect_language g.rel with
  | none => exact h
  | some lang =>
      have h1 : FindEmptyAt r ⟨ensureKey st.forward g.rel, st.reverse, st.errors⟩ :=
        findEmpty_ensureKey st.forward g.rel r h
      cases hex : g.extraction with
      | error e => exact h1
      | ok imps =>
          exact foldl_preserve_mem (FindEmptyAt r) (process_import rv g.rel) imps
            (fun st' imp _ h' => findEmpty_process_import rv g.rel imp st' r hne h')
            _ h1

theorem keys_mono_process_import (rv : Resolver) (rel : String) (imp : Import)
    (st : BuildState) (r : String) (h : r ∈ dictKeys st.forward) :
    r ∈ dictKeys (process_import rv rel st imp).forward := by
  rcases process_import_cases rv rel st imp with heq | ⟨tgt, _, _, _, heq⟩
  · rw [heq]; exact h
  · rw [heq]
    show r ∈ dictKeys (ensureKey (addEdge st.forward rel tgt) tgt)
    rw [mem_keys_ensureKey, mem_keys_addEdge]
    exact Or.inl (Or.inl h)

theorem keys_mono_process_file (rv : Resolver) (st : BuildState) (g : FileRecord)
    (r : String) (h : r ∈ dictKeys st.forward) :
    r ∈ dictKeys (process_file rv st g).forward := by
  unfold process_file
  cases hdl : detect_language g.rel with
  | none => exact h
  | some lang =>
      have h1 : r ∈ dictKeys (ensureKey st.forward g.rel) := by
        rw [mem_keys_ensureKey]
        exact Or.inl h
      cases hex : g.extraction with
      | error e => exact h1
      | ok imps =>
          exact foldl_preserve_mem
            (fun stx : BuildState => r ∈ dictKeys stx.forward)
            (process_import rv g.rel) imps
            (fun st' imp _ h' => keys_mono_process_import rv g.rel imp st' r h')
            _ h1

theorem foldl_all_type_only (rv : Resolver) (rel : String) :
    ∀ (imps : List Import), (∀ imp ∈ imps, imp.is_type_only = true) →
      ∀ (st : BuildState), imps.foldl (process_import rv rel) st = st
  | [], _, _ => rfl
  | imp :: rest, h, st => by
      have hstep : process_import rv rel st imp = st := by
        unfold process_import
        rw [if_pos (h imp (List.mem_cons_self imp rest))]
      rw [List.foldl_cons, hstep,
        foldl_all_type_only rv rel rest
          (fun i hi => h i (List.mem_cons_of_mem imp hi)) st]

theorem process_file_all_type_only (rv : Resolver) (st : BuildState)
    (f : FileRecord) (lang : String) (imps : List Import)
    (hlang : detect_language f.rel = some lang)
    (hex : f.extraction = Except.ok imps)
    (hto : ∀ imp ∈ imps, imp.is_type_only = true) :
    process_file rv st f = ⟨ensureKey st.forward f.rel, st.reverse, st.errors⟩ := by
  unfold process_file
  rw [hlang, hex]
  exact foldl_all_type_only rv f.rel imps hto _

/-! ### God-module lemmas -/

theorem dictFind_of_mem_nodup (d : Dict) (p : String × List String)
    (hp : p ∈ d) (hnd : (d.map Prod.fst).Nodup) : dictFind d p.1 = some p.2 := by
  induction d with
  | nil => cases hp
  | cons q rest ih =>
      rw [List.map_cons, List.nodup_cons] at hnd
      rcases List.mem_cons.mp hp with rfl | hrest
      · simp [dictFind]
      · have hq : ¬ q.1 = p.1 := by
          intro he
          exact hnd.1 (he ▸ List.mem_map_of_mem Prod.fst hrest)
        simp only [dictFind, hq, if_false]
        exact ih hrest hnd.2

/-- The body of the god-module loop, named for the proofs: the report entry
built for one `(module, degree)` pair. -/
@[reducible] def godEntry (reverse_graph : Dict) (medianDegree threshold : ℚ)
    (p : String × Nat) : GodModule :=
  ⟨p.1, p.2,
    List.insertionSort pyStrLe (lookupSet reverse_graph p.1),
    round1 medianDegree, round1 threshold⟩

theorem detect_god_modules_spec (reverse_graph : Dict)
    (thresholdMultiplier minImporters : ℚ) (hne : reverse_graph ≠ []) :
    detect_god_modules reverse_graph thresholdMultiplier minImporters
      = ((List.insertionSort byDescCount
            (reverse_graph.map (fun p => (p.1, p.2.length)))).filter
          (fun p => decide ((p.2 : ℚ) >
            max (median (reverse_graph.map (fun q => ((q.2.length : ℚ))))
                  * thresholdMultiplier) minImporters))).map
        (godEntry reverse_graph
          (median (reverse_graph.map (fun q => ((q.2.length : ℚ)))))
          (max (median (reverse_graph.map (fun q => ((q.2.length : ℚ))))
                  * thresholdMultiplier) minImporters)) := by
  have hmapne : reverse_graph.map (fun p => (p.1, p.2.length)) ≠ [] := by
    intro h
    exact hne (List.map_eq_nil_iff.mp h)
  have hvals : (reverse_graph.map (fun p => (p.1, p.2.length))).map
      (fun p => ((p.2 : ℚ)))
      = reverse_graph.map (fun q => ((q.2.length : ℚ))) := by
    rw [List.map_map]
    rfl
  have hvalsne : (reverse_graph.map (fun p => (p.1, p.2.length))).map
      (fun p => ((p.2 : ℚ))) ≠ [] := by
    intro h
    exact hmapne (List.map_eq_nil_iff.mp h)
  simp only [detect_god_modules]
  rw [if_neg hmapne, if_neg hvalsne, hvals]
  rw [foldl_filter_map
    (fun p : String × Nat => (p.2 : ℚ) >
      max (median (reverse_graph.map (fun q => ((q.2.length : ℚ))))
            * thresholdMultiplier) minImporters)
    (godEntry reverse_graph
      (median (reverse_graph.map (fun q => ((q.2.length : ℚ)))))
      (max (median (reverse_graph.map (fun q => ((q.2.length : ℚ))))
            * thresholdMultiplier) minImporters))]
  rw [List.nil_append]

theorem byDescCount_total_trans :
    ∀ (a b c : String × Nat), byDescCount a b → byDescCount b c → byDescCount a c :=
  fun _ _ _ h1 h2 => Nat.le_trans h2 h1

/-! ### God-module determinism under importer-set reordering -/

theorem forall2_map_pair (rev1 rev2 : Dict)
    (h : List.Forall₂
      (fun p q : String × List String => p.1 = q.1 ∧ p.2.Perm q.2) rev1 rev2) :
    rev1.map (fun p => (p.1, p.2.length)) = rev2.map (fun p => (p.1, p.2.length)) := by
  induction h with
  | nil => rfl
  | cons hpq ht ih =>
      obtain ⟨hk, hp⟩ := hpq
      simp [hk, hp.length_eq, ih]

theorem forall2_lookup_perm (rev1 rev2 : Dict)
    (h : List.Forall₂
      (fun p q : String × List String => p.1 = q.1 ∧ p.2.Perm q.2) rev1 rev2)
    (x : String) : (lookupSet rev1 x).Perm (lookupSet rev2 x) := by
  induction h with
  | nil => exact List.Perm.refl _
  | cons hpq ht ih =>
      obtain ⟨hk, hp⟩ := hpq
      rename_i p q l1 l2
      show ((if p.1 = x then some p.2 else dictFind l1 x).getD []).Perm
        ((if q.1 = x then some q.2 else dictFind l2 x).getD [])
      by_cases hx : p.1 = x
      · rw [if_pos hx, if_pos (hk ▸ hx)]
        exact hp
      · rw [if_neg hx, if_neg (hk ▸ hx)]
        exact ih

theorem sort_eq_of_perm (s1 s2 : List String) (h : s1.Perm s2) :
    List.insertionSort pyStrLe s1 = List.insertionSort pyStrLe s2 :=
  List.eq_of_perm_of_sorted
    ((List.perm_insertionSort _ s1).trans (h.trans (List.perm_insertionSort _ s2).symm))
    (List.sorted_insertionSort _ s1) (List.sorted_insertionSort _ s2)

theorem detect_god_modules_congr (rev1 rev2 : Dict) (m k : ℚ)
    (hdeg : rev1.map (fun p => (p.1, p.2.length)) = rev2.map (fun p => (p.1, p.2.length)))
    (hlook : ∀ x, List.insertionSort pyStrLe (lookupSet rev1 x)
        = List.insertionSort pyStrLe (lookupSet rev2 x)) :
    detect_god_modules rev1 m k = detect_god_modules rev2 m k := by
  have hfold : ∀ (l : List (String × Nat)) (acc : List GodModule) (med thr : ℚ),
      l.foldl (fun acc p => if (p.2 : ℚ) > thr then
          acc ++ [⟨p.1, p.2,
            List.insertionSort pyStrLe (lookupSet rev1 p.1),
            round1 med, round1 thr⟩] else acc) acc
        = l.foldl (fun acc p => if (p.2 : ℚ) > thr then
          acc ++ [⟨p.1, p.2,
            List.insertionSort pyStrLe (lookupSet rev2 p.1),
            round1 med, round1 thr⟩] else acc) acc := by
    intro l
    induction l with
    | nil => intro acc med thr; rfl
    | cons p rest ih =>
        intro acc med thr
        rw [List.foldl_cons, List.foldl_cons, hlook p.1]
        exact ih _ med thr
  simp only [detect_god_modules]
  rw [hdeg]
  by_cases hnil : rev2.map (fun p => (p.1, p.2.length)) = []
  · rw [if_pos hnil, if_pos hnil]
  · rw [if_neg hnil, if_neg hnil]
    exact hfold _ _ _ _

/-! ### Layering lemmas -/

/-- The per-source-entry contribution of `detect_layering_violations`. -/
def entryViolations (p : String × List String) : List LayeringViolation :=
  match infer_layer p.1 with
  | none => []
  | some source_layer =>
      if source_layer = -1 then []
      else p.2.flatMap (edgeViolations p.1 source_layer)

theorem detect_layering_eq (graph : Dict) :
    detect_layering_violations graph = graph.flatMap entryViolations := by
  unfold detect_layering_violations
  have hbody : (fun (acc : List LayeringViolation) (p : String × List String) =>
      match infer_layer p.1 with
      | none => acc
      | some source_layer =>
          if source_layer = -1 then acc
          else p.2.foldl (fun acc t => acc ++ edgeViolations p.1 source_layer t) acc)
      = fun acc p => acc ++ entryViolations p := by
    funext acc p
    unfold entryViolations
    cases infer_layer p.1 with
    | none => simp
    | some sl =>
        by_cases hsl : sl = -1
        · simp [hsl]
        · simp only [hsl, if_false]
          rw [foldl_append_eq]
  rw [hbody, foldl_append_eq, List.nil_append]

theorem mem_edgeViolations (v : LayeringViolation) (source : String)
    (source_layer : Int) (t : String) :
    v ∈ edgeViolations source source_layer t ↔
      ∃ target_layer : Int, infer_layer t = some target_layer ∧
        target_layer ≠ -1 ∧ source_layer < target_layer ∧
        v = ⟨source, source_layer, t, target_layer,
          violationDescription source t⟩ := by
  unfold edgeViolations
  cases ht : infer_layer t with
  | none =>
      simp
  | some tl =>
      dsimp only
      by_cases htl : tl = -1
      · rw [if_pos htl]
        constructor
        · intro hv
          cases hv
        · rintro ⟨tl', h1, h2, h3, h4⟩
          cases h1
          exact absurd htl h2
      · by_cases hlt : source_layer < tl
        · rw [if_neg htl, if_pos hlt]
          constructor
          · intro hv
            rw [List.mem_singleton] at hv
            exact ⟨tl, rfl, htl, hlt, hv⟩
          · rintro ⟨tl', h1, h2, h3, h4⟩
            cases h1
            rw [List.mem_singleton]
            exact h4
        · rw [if_neg htl, if_neg hlt]
          constructor
          · intro hv
            cases hv
          · rintro ⟨tl', h1, h2, h3, h4⟩
            cases h1
            exact absurd h3 hlt

/-! ### Concrete fixtures -/

/-- A resolver that classifies nothing internal and resolves nothing. -/
def trivialResolver : Resolver := ⟨fun _ _ => false, fun _ _ => none⟩

/-- Resolver for the two-file fixture: everything internal, the target
string `b` resolves to `b.py`. -/
def demoResolver : Resolver :=
  ⟨fun _ _ => true, fun _ t => if t = "b" then some ("b.py") else none⟩

/-- One Python file importing `b`. -/
def demoFiles : List FileRecord :=
  [⟨"a.py", Except.ok [⟨"a.py", "b", none, false, 1⟩]⟩]

/-- The three-file ring A→B→C→A. -/
def ringGraph : Dict := [("A", ["B"]), ("B", ["C"]), ("C", ["A"])]

/-- First representation of the complete two-way triangle graph. -/
def triA : Dict := [("A", ["B", "C"]), ("B", ["A", "C"]), ("C", ["A", "B"])]

/-- The same abstract graph as `triA`, with the neighbor set of `A` stored
in the other iteration order. -/
def triB : Dict := [("A", ["C", "B"]), ("B", ["A", "C"]), ("C", ["A", "B"])]

/-- A reverse graph with one heavily imported module (in-degrees
6, 1, 1, 1, 1, 1). -/
def demoReverse : Dict :=
  [ ("lib", ["b", "a", "c", "d", "f", "e"])
  , ("m1", ["a"]), ("m2", ["a"]), ("m3", ["a"]), ("m4", ["a"]), ("m5", ["a"]) ]

/-- `demoReverse` with the importer set of `lib` in another iteration
order. -/
def demoReverse2 : Dict :=
  [ ("lib", ["a", "b", "c", "d", "e", "f"])
  , ("m1", ["a"]), ("m2", ["a"]), ("m3", ["a"]), ("m4", ["a"]), ("m5", ["a"]) ]

/-- A module whose only import sits inside `if TYPE_CHECKING:` (line 1)
with `import b` in its body (line 2). -/
def demoTypeOnlyBody : List PyStmt :=
  [PyStmt.ifStmt (PyExpr.name ("TYPE_CHECKING"))
    [PyStmt.importStmt [⟨"b", none⟩] 2 (some 2)] [] 1 (some 2)]

/-- The walked record of that module. -/
def demoTypeOnlyFile : FileRecord :=
  ⟨"t.py", Except.ok (extract_python_imports ("t.py") (some demoTypeOnlyBody))⟩

/-! ### The claims -/

/-- C1: the claim says a structural (ast) parse failure of a Python file is
surfaced as a `{file, error}` entry in the report error list by
`build_import_graph`.  The code does not do this: `_extract_python_imports`
catches `SyntaxError` and returns the empty list, so the builder records no
error and the file becomes a node with no edges — evaluated here at a file
whose `ast.parse` outcome is a `SyntaxError` (`parsed = none`).  The second
half of the claim (extraction never raises and returns an empty list) is
what the code does. -/
theorem c1_parse_error_swallowed :
    extract_python_imports ("bad.py") none = [] ∧
    build_import_graph [⟨"bad.py", Except.ok (extract_python_imports ("bad.py") none)⟩]
        trivialResolver
      = ⟨[("bad.py", [])], [], []⟩ :=
  ⟨rfl, rfl⟩

/-- C2 counterexample: the claim says `is_internal_import` returns `false`
for every bare Rust target, but for the bare non-builtin target `serde::de`
the code returns `true` (only `std`/`core`/`alloc`/`proc_macro` tops return
`false`). -/
theorem c2_counterexample : is_internal_import_rust ("serde::de") = true := by
  decide

/-- C2 (amended): `crate::`/`super::`/`self::` targets are internal; a bare
target is internal iff its top segment is not one of the built-in crates
`std`, `core`, `alloc`, `proc_macro`; and a bare target is never resolved to
a file (`_resolve_rust_import` returns `None`), so it contributes no edge. -/
theorem c2_rust_internal (target : String) (isFile : String → Bool)
    (source_file root : String) :
    ((strStartsWith target ("crate::") = true ∨ strStartsWith target ("super::") = true
        ∨ strStartsWith target ("self::") = true) →
      is_internal_import_rust target = true) ∧
    (¬ (strStartsWith target ("crate::") = true ∨ strStartsWith target ("super::") = true
        ∨ strStartsWith target ("self::") = true) →
      (is_internal_import_rust target = true ↔
        ¬ ((splitOnColonColon target.toList).map String.mk).headI
            ∈ (["std", "core", "alloc", "proc_macro"] : List String))) ∧
    (((splitOnChar '/' (replaceColonColon target.toList)).map String.mk).headI
        ∉ (["crate", "super", "self"] : List String) →
      resolve_rust_import isFile target source_file root = none) := by
  refine ⟨?_, ?_, ?_⟩
  · intro h
    unfold is_internal_import_rust
    rcases h with h | h | h <;> simp [h]
  · intro h
    rw [not_or, not_or] at h
    obtain ⟨h1, h2, h3⟩ := h
    simp only [Bool.not_eq_true] at h1 h2 h3
    by_cases hc : ((splitOnColonColon target.toList).map String.mk).headI = "std"
        ∨ ((splitOnColonColon target.toList).map String.mk).headI = "core"
        ∨ ((splitOnColonColon target.toList).map String.mk).headI = "alloc"
        ∨ ((splitOnColonColon target.toList).map String.mk).headI = "proc_macro"
    · simp [is_internal_import_rust, h1, h2, h3, hc]
    · simp [is_internal_import_rust, h1, h2, h3, hc]
  · intro h
    unfold resolve_rust_import
    cases hparts : (splitOnChar '/' (replaceColonColon target.toList)).map String.mk with
    | nil => rfl
    | cons p0 rest =>
        rw [hparts] at h
        simp only [List.headI, List.mem_cons, List.not_mem_nil, or_false,
          not_or] at h
        obtain ⟨hc, hs, hf⟩ := h
        dsimp only
        rw [if_neg hc, if_neg hs, if_neg hf]

/-- C2 witness: the amended statement applied to the bare target
`serde::de`. -/
theorem c2_witness :
    (is_internal_import_rust ("serde::de") = true ↔
      ¬ ((splitOnColonColon ("serde::de").toList).map String.mk).headI
          ∈ (["std", "core", "alloc", "proc_macro"] : List String)) ∧
    resolve_rust_import (fun _ => false) ("serde::de") ("src/a.rs") (".") = none := by
  constructor
  · exact (c2_rust_internal ("serde::de") (fun _ => false) ("src/a.rs") (".")).2.1
      (by decide)
  · exact (c2_rust_internal ("serde::de") (fun _ => false) ("src/a.rs") (".")).2.2
      (by decide)

/-- C3 counterexample: the claim says a self-referential single-node
component is reported as a cycle; on the one-node graph with a self-edge the
detector reports nothing. -/
theorem c3_counterexample :
    "A" ∈ lookupSet [("A", ["A"])] ("A") ∧
    tarjan_scc [("A", ["A"])] = [] ∧
    cycles_from_graph [("A", ["A"])] = [] := by decide

/-- C3 (amended): the cycle detector never reports a single-node strongly
connected component, even a self-referential one (see the counterexample);
the other two clauses of the claim hold: every reported component has more
than one node, and conversely every strongly connected component of the
graph with more than one node is reported by `tarjan_scc` as a candidate
cycle, as a list carrying exactly the members of the component. -/
theorem c3_sccs_size :
    (∀ (g : Dict) (l : List String), l ∈ tarjan_scc g → 1 < l.length) ∧
    (∀ (g : Dict) (S : List String), S.Nodup → 1 < S.length → SccOf g S →
      ∃ l ∈ tarjan_scc g, ∀ x, x ∈ l ↔ x ∈ S) :=
  ⟨fun g l hl => tarjan_sccs_length g l hl,
   fun g S hnd hlen hS => tarjan_complete g S hnd hlen hS⟩

/-- C3 witness: on the two-node ring, the component containing both nodes
is reported. -/
theorem c3_witness :
    ∃ l ∈ tarjan_scc [("X", ["Y"]), ("Y", ["X"])],
      ∀ x, x ∈ l ↔ x ∈ ["X", "Y"] :=
  c3_sccs_size.2 [("X", ["Y"]), ("Y", ["X"])] ["X", "Y"]
    (by decide) (by decide) scc_two_ring

/-- C4 counterexample: two representations of the same abstract graph (same
keys, same neighbor sets, one neighbor set iterated in the other order —
CPython set iteration order is hash-seed dependent across processes)
produce different cycle lists, so the full analysis is not byte-identical
across runs on an unchanged tree. -/
theorem c4_counterexample :
    dictKeys triA = dictKeys triB ∧
    (lookupSet triA ("A")).Perm (lookupSet triB ("A")) ∧
    (lookupSet triA ("B")).Perm (lookupSet triB ("B")) ∧
    (lookupSet triA ("C")).Perm (lookupSet triB ("C")) ∧
    cycles_from_graph triA ≠ cycles_from_graph triB := by
  refine ⟨rfl, List.Perm.swap ("C") ("B") [], List.Perm.refl _, List.Perm.refl _, ?_⟩
  decide

/-- C4 (amended): the god-module list is deterministic — it does not depend
on the iteration order of the importer sets (the cycle list does, see the
counterexample). -/
theorem c4_god_modules_order_invariant (rev1 rev2 : Dict)
    (h : List.Forall₂
      (fun p q : String × List String => p.1 = q.1 ∧ p.2.Perm q.2) rev1 rev2) :
    detect_god_modules rev1 3 5 = detect_god_modules rev2 3 5 :=
  detect_god_modules_congr rev1 rev2 3 5 (forall2_map_pair rev1 rev2 h)
    (fun x => sort_eq_of_perm _ _ (forall2_lookup_perm rev1 rev2 h x))

/-- C5: god-module detection computes the median in-degree over the entries
of the reverse graph (under the builder invariant every entry has at least
one importer), sets `threshold = max(median * 3.0, 5)`, reports exactly the
nodes with in-degree strictly above the threshold in descending in-degree
order, each carrying its ascending-sorted importer list and the (rounded)
median and threshold; the empty reverse graph yields the empty list. -/
theorem c5_detect_god_modules (rev : Dict)
    (hkeys : (rev.map Prod.fst).Nodup)
    (hpos : ∀ p ∈ rev, p.2 ≠ []) :
    detect_god_modules [] 3 5 = [] ∧
    (∀ gm : GodModule,
      gm ∈ detect_god_modules rev 3 5 ↔
        ∃ p ∈ rev,
          ((p.2.length : ℚ) >
            max (median (rev.map (fun q => ((q.2.length : ℚ)))) * 3) 5 ∧
          gm = ⟨p.1, p.2.length, List.insertionSort pyStrLe p.2,
            round1 (median (rev.map (fun q => ((q.2.length : ℚ))))),
            round1 (max (median (rev.map (fun q => ((q.2.length : ℚ)))) * 3) 5)⟩)) ∧
    List.Pairwise (fun a b : GodModule => b.importer_count ≤ a.importer_count)
      (detect_god_modules rev 3 5) := by
  have hlook : ∀ p ∈ rev, lookupSet rev p.1 = p.2 := by
    intro p hp
    unfold lookupSet
    rw [dictFind_of_mem_nodup rev p hp hkeys]
    rfl
  refine ⟨rfl, ?_, ?_⟩
  · intro gm
    by_cases hrev : rev = []
    · subst hrev
      simp [detect_god_modules]
    · rw [detect_god_modules_spec rev 3 5 hrev]
      constructor
      · intro hm
        rw [List.mem_map] at hm
        obtain ⟨q, hq, hgm⟩ := hm
        rw [List.mem_filter] at hq
        obtain ⟨hqs, hqc⟩ := hq
        rw [(List.perm_insertionSort byDescCount _).mem_iff, List.mem_map] at hqs
        obtain ⟨p, hp, rfl⟩ := hqs
        refine ⟨p, hp, of_decide_eq_true hqc, ?_⟩
        rw [← hgm]
        simp [godEntry, hlook p hp]
      · rintro ⟨p, hp, hgt, rfl⟩
        rw [List.mem_map]
        refine ⟨(p.1, p.2.length), ?_, ?_⟩
        · rw [List.mem_filter]
          refine ⟨?_, decide_eq_true hgt⟩
          rw [(List.perm_insertionSort byDescCount _).mem_iff]
          exact List.mem_map_of_mem _ hp
        · simp [godEntry, hlook p hp]
  · by_cases hrev : rev = []
    · subst hrev
      show List.Pairwise _ (detect_god_modules [] 3 5)
      exact List.Pairwise.nil
    · rw [detect_god_modules_spec rev 3 5 hrev]
      have hsorted : List.Pairwise byDescCount
          (List.insertionSort byDescCount (rev.map (fun p => (p.1, p.2.length)))) :=
        List.sorted_insertionSort byDescCount _
      rw [List.pairwise_map]
      exact List.Pairwise.imp (fun hab => hab)
        (hsorted.sublist (List.filter_sublist _))

/-- C6: a layering violation is flagged exactly for the forward edges whose
endpoints both have an inferred, non-test layer with the source layer
strictly below the target layer, and the description names both matched
layer directory names. -/
theorem c6_layering_characterization (g : Dict) (v : LayeringViolation) :
    v ∈ detect_layering_violations g ↔
      ∃ p ∈ g, ∃ t ∈ p.2, ∃ sl tl : Int,
        infer_layer p.1 = some sl ∧ infer_layer t = some tl ∧
        sl ≠ -1 ∧ tl ≠ -1 ∧ sl < tl ∧
        v = ⟨p.1, sl, t, tl, violationDescription p.1 t⟩ := by
  rw [detect_layering_eq, List.mem_flatMap]
  constructor
  · rintro ⟨p, hp, hv⟩
    refine ⟨p, hp, ?_⟩
    unfold entryViolations at hv
    split at hv
    · cases hv
    · rename_i sl hsl
      split at hv
      · cases hv
      · rename_i hsl1
        rw [List.mem_flatMap] at hv
        obtain ⟨t, ht, hv⟩ := hv
        rw [mem_edgeViolations] at hv
        obtain ⟨tl, htl, htl1, hlt, rfl⟩ := hv
        exact ⟨t, ht, sl, tl, hsl, htl, hsl1, htl1, hlt, rfl⟩
  · rintro ⟨p, hp, t, ht, sl, tl, hsl, htl, hsl1, htl1, hlt, rfl⟩
    refine ⟨p, hp, ?_⟩
    unfold entryViolations
    rw [hsl]
    dsimp only
    rw [if_neg hsl1, List.mem_flatMap]
    exact ⟨t, ht, (mem_edgeViolations _ _ _ _).mpr ⟨tl, htl, htl1, hlt, rfl⟩⟩

/-- C7: the three-node ring A→B→C→A yields exactly one deduplicated
elementary cycle of length 3 containing A, B and C. -/
theorem c7_three_ring :
    cycles_from_graph ringGraph = [⟨["C", "A", "B"], 3⟩] ∧
    (⟨["C", "A", "B"], 3⟩ : CycleRecord).length = 3 ∧
    "A" ∈ (⟨["C", "A", "B"], 3⟩ : CycleRecord).files ∧
    "B" ∈ (⟨["C", "A", "B"], 3⟩ : CycleRecord).files ∧
    "C" ∈ (⟨["C", "A", "B"], 3⟩ : CycleRecord).files := by decide

/-- C8: a walked file with a recognized language all of whose extracted
imports are type-only contributes no forward edges: it ends up registered
as a node whose adjacency set is empty. -/
theorem c8_type_only_imports_no_edges (pre post : List FileRecord)
    (f : FileRecord) (rv : Resolver) (lang : String) (imps : List Import)
    (hlang : detect_language f.rel = some lang)
    (hex : f.extraction = Except.ok imps)
    (hto : ∀ imp ∈ imps, imp.is_type_only = true)
    (hothers : ∀ g ∈ pre ++ post, g.rel ≠ f.rel) :
    dictFind (build_import_graph (pre ++ f :: post) rv).forward f.rel = some [] ∧
    f.rel ∈ dictKeys (build_import_graph (pre ++ f :: post) rv).forward := by
  have hsplit : build_import_graph (pre ++ f :: post) rv
      = post.foldl (process_file rv)
          (process_file rv (pre.foldl (process_file rv) ⟨[], [], []⟩) f) := by
    unfold build_import_graph
    rw [List.foldl_append, List.foldl_cons]
  have hpre : FindEmptyAt f.rel (pre.foldl (process_file rv) ⟨[], [], []⟩) :=
    foldl_preserve_mem (FindEmptyAt f.rel) (process_file rv) pre
      (fun st g hg h' => findEmpty_process_file rv st g f.rel
        (hothers g (List.mem_append_left post hg)) h') ⟨[], [], []⟩ (Or.inl rfl)
  have hf : dictFind
      (process_file rv (pre.foldl (process_file rv) ⟨[], [], []⟩) f).forward f.rel
      = some [] := by
    rw [process_file_all_type_only rv _ f lang imps hlang hex hto]
    show dictFind
      (ensureKey (pre.foldl (process_file rv) ⟨[], [], []⟩).forward f.rel) f.rel
      = some []
    rw [dictFind_ensureKey]
    rcases hpre with h' | h'
    · rw [h']
      simp
    · rw [h']
      simp
  have hkeys : f.rel ∈ dictKeys (build_import_graph (pre ++ f :: post) rv).forward := by
    rw [hsplit]
    refine foldl_preserve_mem (fun st : BuildState => f.rel ∈ dictKeys st.forward)
      (process_file rv) post
      (fun st g _ h' => keys_mono_process_file rv st g f.rel h') _ ?_
    show f.rel ∈ dictKeys
      (process_file rv (pre.foldl (process_file rv) ⟨[], [], []⟩) f).forward
    rw [← dictFind_isSome_iff_mem, hf]
    rfl
  have hpost : FindEmptyAt f.rel (build_import_graph (pre ++ f :: post) rv) := by
    rw [hsplit]
    exact foldl_preserve_mem (FindEmptyAt f.rel) (process_file rv) post
      (fun st g hg h' => findEmpty_process_file rv st g f.rel
        (hothers g (List.mem_append_right pre hg)) h') _ (Or.inr hf)
  refine ⟨?_, hkeys⟩
  rcases hpost with h' | h'
  · exfalso
    rw [← dictFind_isSome_iff_mem, h'] at hkeys
    simp at hkeys
  · exact h'

/-- C8 witness: the file whose only import sits in a TYPE_CHECKING block
(extracted structurally by line-range containment) becomes a node with an
empty adjacency set. -/
theorem c8_witness :
    dictFind (build_import_graph [demoTypeOnlyFile] trivialResolver).forward
      ("t.py") = some [] :=
  (c8_type_only_imports_no_edges [] [] demoTypeOnlyFile trivialResolver ("python")
    (extract_python_imports ("t.py") (some demoTypeOnlyBody))
    (by decide) rfl (by decide) (by decide)).1

/-- C9: after `build_import_graph` the reverse map is the exact transpose of
the forward map, adjacency sets are duplicate-free, every forward edge stems
from a non-type-only import classified internal whose target resolved, both
endpoints of every forward edge are forward keys, and every reverse key is a
forward key. -/
theorem c9_graph_invariants (files : List FileRecord) (rv : Resolver) :
    (∀ a b, b ∈ lookupSet (build_import_graph files rv).forward a ↔
      a ∈ lookupSet (build_import_graph files rv).reverse b) ∧
    (∀ p ∈ (build_import_graph files rv).forward, (p.2 : List String).Nodup) ∧
    (∀ p ∈ (build_import_graph files rv).reverse, (p.2 : List String).Nodup) ∧
    (∀ a b, b ∈ lookupSet (build_import_graph files rv).forward a →
      a ∈ dictKeys (build_import_graph files rv).forward ∧
      b ∈ dictKeys (build_import_graph files rv).forward) ∧
    (∀ k, k ∈ dictKeys (build_import_graph files rv).reverse →
      k ∈ dictKeys (build_import_graph files rv).forward) ∧
    (∀ a b, b ∈ lookupSet (build_import_graph files rv).forward a →
      EdgeProv files rv a b) := by
  obtain ⟨h1, h2, h3, h4, h5⟩ := graphInv_build files rv
  exact ⟨h1, h2, h3, h4, h5, fun a b h => edge_prov_build files rv a b h⟩

/-- C9 witness: in the two-file fixture the transpose direction of the
invariant turns the forward edge a.py→b.py into the reverse edge. -/
theorem c9_witness :
    "a.py" ∈ lookupSet (build_import_graph demoFiles demoResolver).reverse
      ("b.py") :=
  ((c9_graph_invariants demoFiles demoResolver).1 ("a.py") ("b.py")).mp (by decide)

/-- C10: a walked file whose extension has no entry in the language map
(the walker admits `.java`, `.rb`, `.php`, `.c`, `.cpp`, …) is skipped
before node registration: removing it from the walk leaves the build output
unchanged, so it appears nowhere in the report. -/
theorem c10_unsupported_language_skipped (pre post : List FileRecord)
    (f : FileRecord) (rv : Resolver) (h : detect_language f.rel = none) :
    build_import_graph (pre ++ f :: post) rv = build_import_graph (pre ++ post) rv ∧
    (".java" ∈ ALL_SOURCE_EXTENSIONS ∧ detect_language ("Main.java") = none) ∧
    (".rb" ∈ ALL_SOURCE_EXTENSIONS ∧ detect_language ("tools/x.rb") = none) ∧
    (".php" ∈ ALL_SOURCE_EXTENSIONS ∧ detect_language ("a.php") = none) ∧
    (".c" ∈ ALL_SOURCE_EXTENSIONS ∧ detect_language ("m.c") = none) ∧
    (".cpp" ∈ ALL_SOURCE_EXTENSIONS ∧ detect_language ("n.cpp") = none) := by
  refine ⟨?_, by decide, by decide, by decide, by decide, by decide⟩
  unfold build_import_graph
  rw [List.foldl_append, List.foldl_cons, List.foldl_append]
  have hskip : ∀ st : BuildState, process_file rv st f = st := by
    intro st
    unfold process_file
    rw [h]
  rw [hskip]

/-- C10 witness: a walked `.java` file leaves the build output unchanged. -/
theorem c10_witness :
    build_import_graph [⟨"Main.java", Except.ok []⟩] trivialResolver
      = build_import_graph [] trivialResolver :=
  (c10_unsupported_language_skipped [] [] ⟨"Main.java", Except.ok []⟩
    trivialResolver (by decide)).1

/-! ### Witnesses needing rational-arithmetic evaluation -/

set_option allowUnsafeReducibility true

section RatEval

attribute [local semireducible] Rat.add Rat.mul Rat.sub Rat.inv

/-- C4 witness: the god-module list is unchanged when the importer set of
`lib` is stored in another iteration order. -/
theorem c4_witness :
    detect_god_modules demoReverse 3 5 = detect_god_modules demoReverse2 3 5 :=
  c4_god_modules_order_invariant demoReverse demoReverse2
    (List.Forall₂.cons ⟨rfl, by decide⟩
      (List.Forall₂.cons ⟨rfl, List.Perm.refl _⟩
        (List.Forall₂.cons ⟨rfl, List.Perm.refl _⟩
          (List.Forall₂.cons ⟨rfl, List.Perm.refl _⟩
            (List.Forall₂.cons ⟨rfl, List.Perm.refl _⟩
              (List.Forall₂.cons ⟨rfl, List.Perm.refl _⟩ List.Forall₂.nil))))))

/-- C5 witness: on the fixture with in-degrees 6, 1, 1, 1, 1, 1 (median 1,
threshold 5), exactly the module of in-degree 6 is reported, with its
importer list sorted. -/
theorem c5_witness :
    (⟨"lib", 6, ["a", "b", "c", "d", "e", "f"], 1, 5⟩ : GodModule)
      ∈ detect_god_modules demoReverse 3 5 :=
  ((c5_detect_god_modules demoReverse (by decide) (by decide)).2.1
      ⟨"lib", 6, ["a", "b", "c", "d", "e", "f"], 1, 5⟩).mpr
    ⟨("lib", ["b", "a", "c", "d", "f", "e"]), by decide, by decide, by decide⟩

end RatEval

end CodebaseHealth
